import Mathlib

/-!
# A JSON-file user store: `Perform` and its helpers (`main.go`)

The development embeds the program of `main.go` and proves properties of it.

Modelling conventions.
* Go strings, file contents and the bytes written to the `io.Writer` are taken to be valid
  UTF-8 text, represented by the list of their code points (`Text`).
* A Go `int` has 64 bits; the library is the one of Go 1.22 or later.
* `Arguments` (a Go `map[string]string`) is an association list; a missing key reads as `""`.
* A Go `error` result is an `Option Error` (`none` is `nil`).
* The state the program acts on is a `World`: the files of the file system and the bytes
  received so far by the writer.  System calls may fail; which ones do, and how far a
  failing write got, is given by a `Faults` record.
* `encoding/json` and `fmt` are library code; they are modelled here as far as `main.go`
  uses them (`json.Marshal` of `User` and `[]User`, `json.Unmarshal` into `User`,
  `Decoder.Decode` into `[]User`, `fmt.Fprintf` with the two kinds of call `main.go` makes).
-/

namespace UserStore

deriving instance DecidableEq for Except

/-- UTF-8 text as the list of its code points. -/
abbrev Text := List Char

/-- Go's `type Arguments map[string]string`. -/
abbrev Arguments := List (Text × Text)

/-- Map read `args[k]`: the zero value `""` when the key is missing. -/
def Arguments.get (args : Arguments) (k : Text) : Text :=
  (args.lookup k).getD []

/-- Go `error` values met by the program. -/
inductive Error where
  /-- An error made by `errors.New` or `fmt.Errorf`, with its message. -/
  | msg (text : Text)
  /-- An error of `encoding/json` (syntax error, type mismatch, unexpected end of input). -/
  | json
  /-- An error of a system call on the file (`*fs.PathError`), with the operation. -/
  | path (op : Text)
  deriving DecidableEq, Repr

def add : Text := "add".toList
def list : Text := "list".toList
def findById : Text := "findById".toList
def remove : Text := "remove".toList

def errNoOperationFlag : Error := .msg "-operation flag has to be specified".toList
def errNoFileNameFlag : Error := .msg "-fileName flag has to be specified".toList
def errNoItemFlag : Error := .msg "-item flag has to be specified".toList
def errNoIdFlag : Error := .msg "-id flag has to be specified".toList

def allowedOperations : List Text := [add, list, findById, remove]

/-- The value of `fmt.Errorf("Operation %s not allowed!", operation)`. -/
def errOperationNotAllowed (operation : Text) : Error :=
  .msg ("Operation ".toList ++ operation ++ " not allowed!".toList)

/-- `validateArgs` of `main.go`. -/
def validateArgs (args : Arguments) : Option Error :=
  -- 1. validate file name
  if args.get "fileName".toList = [] then some errNoFileNameFlag
  else
    -- 2. validate operation flag and its values
    let operation := args.get "operation".toList
    if operation = [] then some errNoOperationFlag
    else
      let correctOp := allowedOperations.any (fun v => operation = v)
      if !correctOp then some (errOperationNotAllowed (args.get "operation".toList))
      else if operation = add then
        if args.get "item".toList = [] then some errNoItemFlag else none
      else if operation = remove ∨ operation = findById then
        if args.get "id".toList = [] then some errNoIdFlag else none
      else none

/-- Go's `type User struct`; `Age` is a Go `int` (64 bits), read here as an integer in
`[-2^63, 2^63)`. -/
structure User where
  ID : Text
  Email : Text
  Age : Int
  deriving DecidableEq, Repr

/-! ## `encoding/json`: reading -/

/-- A JSON value as the scanner delimits it; a number keeps its literal. -/
inductive JValue where
  | null
  | bool (b : Bool)
  | num (lit : Text)
  | str (s : Text)
  | arr (xs : List JValue)
  | obj (kvs : List (Text × JValue))

/-- `isSpace` of `scanner.go`. -/
def isSpace (c : Char) : Bool := c = ' ' || c = '\t' || c = '\r' || c = '\n'

/-- Drops leading white space. -/
def skipSpace : Text → Text
  | [] => []
  | c :: cs => if isSpace c then skipSpace cs else c :: cs

def isDigit (c : Char) : Bool := '0'.toNat ≤ c.toNat && c.toNat ≤ '9'.toNat

/-- The value of a hexadecimal digit, of either case. -/
def hexVal (c : Char) : Option Nat :=
  if '0'.toNat ≤ c.toNat ∧ c.toNat ≤ '9'.toNat then some (c.toNat - '0'.toNat)
  else if 'a'.toNat ≤ c.toNat ∧ c.toNat ≤ 'f'.toNat then some (c.toNat - 'a'.toNat + 10)
  else if 'A'.toNat ≤ c.toNat ∧ c.toNat ≤ 'F'.toNat then some (c.toNat - 'A'.toNat + 10)
  else none

/-- The value of four hexadecimal digits. -/
def hex4 (a b c d : Char) : Option Nat :=
  match hexVal a, hexVal b, hexVal c, hexVal d with
  | some x, some y, some z, some w => some (((x * 16 + y) * 16 + z) * 16 + w)
  | _, _, _, _ => none

/-- `getu4` of `decode.go`: the code unit of a leading `\\uXXXX`, if there is one. -/
def getu4 : Text → Option Nat
  | '\\' :: 'u' :: a :: b :: c :: d :: _ => hex4 a b c d
  | _ => none

/-- `utf16.IsSurrogate`. -/
def isSurrogate (r : Nat) : Bool := 0xd800 ≤ r && r < 0xe000

def replacementChar : Char := Char.ofNat 0xfffd

/-- `utf16.DecodeRune` on a first code unit and the one `getu4` found after it: the code
point of a valid surrogate pair, `none` where Go yields the replacement character. -/
def decodeRune (r1 : Nat) (r2 : Option Nat) : Option Char :=
  match r2 with
  | some r2 =>
    if 0xd800 ≤ r1 ∧ r1 < 0xdc00 ∧ 0xdc00 ≤ r2 ∧ r2 < 0xe000 then
      some (Char.ofNat ((r1 - 0xd800) * 0x400 + (r2 - 0xdc00) + 0x10000))
    else none
  | none => none

/-- One step inside a string literal (the scanner's `stateInString`… and `unquote`
together): `none` for a syntax error, `some (none, rest)` at the closing quote, and
otherwise the character that the next character or escape sequence stands for. -/
def strStep : Text → Option (Option Char × Text)
  | [] => none
  | c :: cs =>
    if c = '"' then some (none, cs)
    else if c = '\\' then
      match cs with
      | [] => none
      | e :: cs1 =>
        if e = '"' then some (some '"', cs1)
        else if e = '\\' then some (some '\\', cs1)
        else if e = '/' then some (some '/', cs1)
        else if e = 'b' then some (some (Char.ofNat 8), cs1)
        else if e = 'f' then some (some (Char.ofNat 12), cs1)
        else if e = 'n' then some (some '\n', cs1)
        else if e = 'r' then some (some '\r', cs1)
        else if e = 't' then some (some '\t', cs1)
        else if e = 'u' then
          match cs1 with
          | h1 :: h2 :: h3 :: h4 :: cs2 =>
            match hex4 h1 h2 h3 h4 with
            | none => none
            | some rr =>
              if isSurrogate rr then
                match decodeRune rr (getu4 cs2) with
                | some dec => some (some dec, cs2.drop 6)
                | none => some (some replacementChar, cs2)
              else some (some (Char.ofNat rr), cs2)
          | _ => none
        else none
    else if c.toNat < 0x20 then none
    else some (some c, cs)

/-- The body of a string literal, after the opening quote: its value and the text after
the closing quote. `fuel` bounds the number of steps. -/
def strBody : Nat → Text → Option (Text × Text)
  | 0, _ => none
  | fuel + 1, cs =>
    match strStep cs with
    | none => none
    | some (none, rest) => some ([], rest)
    | some (some c, rest) => (strBody fuel rest).map fun p => (c :: p.1, p.2)

/-- A string literal after its opening quote: its value and what follows the closing quote. -/
def parseString (cs : Text) : Option (Text × Text) := strBody cs.length cs


/-- The longest prefix of digits, and what follows it. -/
def takeDigits : Text → Text × Text
  | [] => ([], [])
  | c :: cs => if isDigit c then ((takeDigits cs).1.cons c, (takeDigits cs).2) else ([], c :: cs)

/-- The optional minus sign of a number (`stateBeginValue` on `-`). -/
def scanSign : Text → Text × Text
  | c :: t => if c = '-' then (['-'], t) else ([], c :: t)
  | [] => ([], [])

/-- The integer part of a number: `0`, or a digit from 1 to 9 and the digits after it
(`stateNeg`, `state0`, `state1`). -/
def scanInt : Text → Option (Text × Text)
  | [] => none
  | c :: t =>
    if c = '0' then some (['0'], t)
    else if isDigit c then some (c :: (takeDigits t).1, (takeDigits t).2)
    else none

/-- The optional fraction of a number: a dot and at least one digit (`stateDot`,
`stateDot0`). -/
def scanFrac : Text → Option (Text × Text)
  | [] => some ([], [])
  | c :: t =>
    if c = '.' then
      if (takeDigits t).1 = [] then none else some ('.' :: (takeDigits t).1, (takeDigits t).2)
    else some ([], c :: t)

/-- The optional sign of an exponent (`stateE`). -/
def scanExpSign : Text → Text × Text
  | s :: t => if s = '+' ∨ s = '-' then ([s], t) else ([], s :: t)
  | [] => ([], [])

/-- The optional exponent of a number: `e` or `E`, an optional sign and at least one digit
(`stateE`, `stateESign`, `stateE0`). -/
def scanExp : Text → Option (Text × Text)
  | [] => some ([], [])
  | e :: t =>
    if e = 'e' ∨ e = 'E' then
      if (takeDigits (scanExpSign t).2).1 = [] then none
      else some (e :: (scanExpSign t).1 ++ (takeDigits (scanExpSign t).2).1,
        (takeDigits (scanExpSign t).2).2)
    else some ([], e :: t)

/-- The scanner's number states: the literal of the number a text starts with, and what
follows it. -/
def scanNumber (cs : Text) : Option (Text × Text) :=
  match scanInt (scanSign cs).2 with
  | none => none
  | some (ds, cs2) =>
    match scanFrac cs2 with
    | none => none
    | some (fs, cs3) =>
      match scanExp cs3 with
      | none => none
      | some (es, cs4) => some ((scanSign cs).1 ++ ds ++ fs ++ es, cs4)

/-- A literal `true`, `false` or `null` (`stateT`…, `stateF`…, `stateN`…). -/
def scanLiteral (cs : Text) : Option (JValue × Text) :=
  match cs with
  | 't' :: 'r' :: 'u' :: 'e' :: r => some (.bool true, r)
  | 'f' :: 'a' :: 'l' :: 's' :: 'e' :: r => some (.bool false, r)
  | 'n' :: 'u' :: 'l' :: 'l' :: r => some (.null, r)
  | _ => none

/-- The scanner's limit on nesting. -/
def maxNestingDepth : Nat := 10000

mutual
/-- One JSON value at the start of the text (after white space), and what follows it. -/
def parseValue : Nat → Nat → Text → Option (JValue × Text)
  | 0, _, _ => none
  | fuel + 1, depth, cs =>
    match skipSpace cs with
    | [] => none
    | c :: r =>
      if c = '{' then
        if depth + 1 > maxNestingDepth then none
        else match skipSpace r with
          | '}' :: r1 => some (.obj [], r1)
          | _ => (parseMembers fuel (depth + 1) r).map fun p => (.obj p.1, p.2)
      else if c = '[' then
        if depth + 1 > maxNestingDepth then none
        else match skipSpace r with
          | ']' :: r1 => some (.arr [], r1)
          | _ => (parseElems fuel (depth + 1) r).map fun p => (.arr p.1, p.2)
      else if c = '"' then (parseString r).map fun p => (.str p.1, p.2)
      else if c = '-' ∨ isDigit c then (scanNumber (c :: r)).map fun p => (.num p.1, p.2)
      else scanLiteral (c :: r)
/-- The elements of a non-empty array, up to and including the closing bracket. -/
def parseElems : Nat → Nat → Text → Option (List JValue × Text)
  | 0, _, _ => none
  | fuel + 1, depth, cs =>
    match parseValue fuel depth cs with
    | none => none
    | some (v, r) =>
      match skipSpace r with
      | ',' :: r1 => (parseElems fuel depth r1).map fun p => (v :: p.1, p.2)
      | ']' :: r1 => some ([v], r1)
      | _ => none
/-- The members of a non-empty object, up to and including the closing brace. -/
def parseMembers : Nat → Nat → Text → Option (List (Text × JValue) × Text)
  | 0, _, _ => none
  | fuel + 1, depth, cs =>
    match skipSpace cs with
    | '"' :: r =>
      match parseString r with
      | none => none
      | some (k, r1) =>
        match skipSpace r1 with
        | ':' :: r2 =>
          match parseValue fuel depth r2 with
          | none => none
          | some (v, r3) =>
            match skipSpace r3 with
            | ',' :: r4 => (parseMembers fuel depth r4).map fun p => ((k, v) :: p.1, p.2)
            | '}' :: r4 => some ([(k, v)], r4)
            | _ => none
        | _ => none
    | _ => none
end

/-- The first JSON value of a text and the text after it; `none` for a syntax error. -/
def parseJSON (cs : Text) : Option (JValue × Text) := parseValue (2 * cs.length + 2) 0 cs


/-- The value of a decimal digit. -/
def digitVal (c : Char) : Nat := c.toNat - '0'.toNat

/-- The number a text of decimal digits denotes; `none` when it is empty or one of its
characters is not a digit (`strconv.ParseUint` in base 10, before its range check). -/
def digitsVal (cs : Text) : Option Nat :=
  if cs = [] then none
  else cs.foldl (fun acc c => acc.bind fun n => if isDigit c then some (n * 10 + digitVal c) else none)
    (some 0)

/-- `strconv.ParseInt(s, 10, 64)`: an optional sign, decimal digits, and a value that fits
in 64 bits. -/
def parseInt (s : Text) : Option Int :=
  match s with
  | '-' :: r =>
    match digitsVal r with
    | some n => if n ≤ 2 ^ 63 then some (-(n : Int)) else none
    | none => none
  | '+' :: r =>
    match digitsVal r with
    | some n => if n < 2 ^ 63 then some (n : Int) else none
    | none => none
  | _ =>
    match digitsVal s with
    | some n => if n < 2 ^ 63 then some (n : Int) else none
    | none => none

/-- ASCII upper case of a letter; other characters are left as they are. -/
def asciiUpper (c : Char) : Char :=
  if 'a'.toNat ≤ c.toNat ∧ c.toNat ≤ 'z'.toNat then Char.ofNat (c.toNat - 32) else c

/-- The match of an object key with a field name of `User`: equality up to the case of
letters (for the names `id`, `email` and `age`, whose letters fold with ASCII letters only,
this is the decoder's match: the exact name first, then the folded name). -/
def keyMatches (key name : Text) : Bool := key.map asciiUpper = name.map asciiUpper

/-- Stores the value of one object member in the field of `User` its key names
(`decodeState.object`): a string for `ID` and `Email`, a number `strconv.ParseInt` reads
for `Age`; `null` leaves the field as it is, a member with an unknown key is skipped, a value
of another type is an `UnmarshalTypeError` (`none`). -/
def setField (u : User) (kv : Text × JValue) : Option User :=
  if keyMatches kv.1 "id".toList then
    match kv.2 with
    | .str s => some { u with ID := s }
    | .null => some u
    | _ => none
  else if keyMatches kv.1 "email".toList then
    match kv.2 with
    | .str s => some { u with Email := s }
    | .null => some u
    | _ => none
  else if keyMatches kv.1 "age".toList then
    match kv.2 with
    | .num lit =>
      match parseInt lit with
      | some n => some { u with Age := n }
      | none => none
    | .null => some u
    | _ => none
  else some u

/-- Stores the members of an object, in order, starting from `u`. -/
def setFields : User → List (Text × JValue) → Option User
  | u, [] => some u
  | u, kv :: kvs =>
    match setField u kv with
    | some u1 => setFields u1 kvs
    | none => none

/-- Decodes a JSON value into a `User` that holds `u`: an object sets fields, `null`
changes nothing, any other value is a type error. -/
def decodeUser (u : User) : JValue → Option User
  | .obj kvs => setFields u kvs
  | .null => some u
  | _ => none

/-- Decodes the elements of an array, each into a zero `User`. -/
def decodeElems : List JValue → Option (List User)
  | [] => some []
  | v :: vs =>
    match decodeUser ⟨[], [], 0⟩ v, decodeElems vs with
    | some u, some us => some (u :: us)
    | _, _ => none

/-- Decodes a JSON value into a `[]User`: an array gives its elements, `null` the nil
slice, any other value is a type error. -/
def decodeUsers : JValue → Option (List User)
  | .arr vs => decodeElems vs
  | .null => some []
  | _ => none

/-- `json.Unmarshal(data, &item)` with `item` a zero `User`: the whole of `data` has to be
one JSON value, white space around it apart. -/
def jsonUnmarshalUser (data : Text) : Except Error User :=
  match parseJSON data with
  | some (v, rest) =>
    if skipSpace rest = [] then
      match decodeUser ⟨[], [], 0⟩ v with
      | some u => .ok u
      | none => .error .json
    else .error .json
  | none => .error .json

/-- `json.NewDecoder(file).Decode(&items)` on the text the file holds from its read position
on: the first JSON value is decoded, what follows it is not looked at. -/
def jsonDecodeUsers (data : Text) : Except Error (List User) :=
  match parseJSON data with
  | some (v, _) =>
    match decodeUsers v with
    | some us => .ok us
    | none => .error .json
  | none => .error .json

/-! ## `encoding/json`: writing -/

/-- The decimal digit `"0123456789"[d]`. -/
def digitChar (d : Nat) : Char := Char.ofNat ('0'.toNat + d)

/-- The digit `"0123456789abcdef"[n]`. -/
def hexDigit (n : Nat) : Char :=
  if n < 10 then digitChar n else Char.ofNat ('a'.toNat + (n - 10))

/-- What `appendString` (with HTML escaping, as `json.Marshal` does) writes for one
character of a string: `"`, `\\`, the control characters, `<`, `>`, `&`, U+2028 and U+2029
are escaped, every other character stands for itself. -/
def escapeChar (c : Char) : Text :=
  if c.toNat < 0x80 then
    if 0x20 ≤ c.toNat ∧ c ≠ '"' ∧ c ≠ '\\' ∧ c ≠ '<' ∧ c ≠ '>' ∧ c ≠ '&' then [c]
    else if c = '\\' ∨ c = '"' then ['\\', c]
    else if c.toNat = 8 then ['\\', 'b']
    else if c.toNat = 12 then ['\\', 'f']
    else if c = '\n' then ['\\', 'n']
    else if c = '\r' then ['\\', 'r']
    else if c = '\t' then ['\\', 't']
    else ['\\', 'u', '0', '0', hexDigit (c.toNat / 16), hexDigit (c.toNat % 16)]
  else if c.toNat = 0x2028 ∨ c.toNat = 0x2029 then
    ['\\', 'u', '2', '0', '2', hexDigit (c.toNat % 16)]
  else [c]

/-- The escaped characters of a string, one after the other. -/
def escapeText : Text → Text
  | [] => []
  | c :: cs => escapeChar c ++ escapeText cs

/-- `appendString`: a string as a JSON string literal. -/
def appendString (s : Text) : Text := '"' :: escapeText s ++ ['"']

/-- The decimal digits of `n`, most significant first; `fuel` bounds their number. -/
def natDigits : Nat → Nat → Text
  | 0, _ => []
  | fuel + 1, n =>
    if n < 10 then [digitChar n]
    else natDigits fuel (n / 10) ++ [digitChar (n % 10)]

/-- `strconv.FormatInt(i, 10)`. -/
def formatInt (i : Int) : Text :=
  if i < 0 then '-' :: natDigits (i.natAbs + 1) i.natAbs else natDigits (i.natAbs + 1) i.natAbs

/-- The value of a field of `User`, as the encoder sees it. -/
inductive FieldVal where
  | string (s : Text)
  | int (i : Int)

/-- `isEmptyValue`, which decides what `omitempty` leaves out. -/
def isEmptyValue : FieldVal → Bool
  | .string s => s.length = 0
  | .int i => i = 0

/-- The encoding of a field's value. -/
def encodeValue : FieldVal → Text
  | .string s => appendString s
  | .int i => formatInt i

/-- The fields of `User` with their JSON names, in the order of the declaration. -/
def User.fields (u : User) : List (Text × FieldVal) :=
  [("id".toList, .string u.ID), ("email".toList, .string u.Email), ("age".toList, .int u.Age)]

/-- Texts joined by commas. -/
def joinComma : List Text → Text
  | [] => []
  | [t] => t
  | t :: ts => t ++ ',' :: joinComma ts

/-- `json.Marshal(user)`: the struct encoder on the fields that are not empty. -/
def marshalUser (u : User) : Text :=
  '{' :: joinComma ((u.fields.filter fun f => !isEmptyValue f.2).map fun f =>
    appendString f.1 ++ ':' :: encodeValue f.2) ++ ['}']

/-- `json.Marshal(users)` for a slice that is not nil (the program never encodes a nil
slice: it encodes the result of an `append`). -/
def marshalUsers (us : List User) : Text :=
  '[' :: joinComma (us.map marshalUser) ++ [']']

/-- `json.Marshal` on a `[]User`; it has no way to fail on this type. -/
def jsonMarshalUsers (us : List User) : Except Error Text := .ok (marshalUsers us)

/-- `json.Marshal` on a `User`; it has no way to fail on this type. -/
def jsonMarshalUser (u : User) : Except Error Text := .ok (marshalUser u)

/-! ## `fmt.Fprintf` -/

/-- The loop of `parsenum` of `fmt/print.go`: the number read so far, whether a digit was
read, and the text from the first character that is no digit on. A number over `1e6`
before a further digit stops the scan at the end of the text, with no number. -/
def parsenumLoop (num : Nat) (isnum : Bool) : Text → Nat × Bool × Text
  | [] => (num, isnum, [])
  | c :: cs =>
    if isDigit c then
      if num > 1000000 then (0, false, [])
      else parsenumLoop (num * 10 + digitVal c) true cs
    else (num, isnum, c :: cs)

/-- `parsenum` on the text between `start` and `end`. -/
def parsenum (cs : Text) : Nat × Bool × Text :=
  if cs = [] then (0, false, []) else parsenumLoop 0 false cs

/-- `parseArgNumber` on a text that starts with `[`: the width of the bracketed index and
whether it is a number. -/
def parseArgNumber (format : Text) : Nat × Bool :=
  if format.length < 3 then (1, false)
  else
    let inner := format.tail.takeWhile (fun c => c ≠ ']')
    if format.tail.dropWhile (fun c => c ≠ ']') = [] then (1, false)
    else
      let r := parsenum inner
      if !r.2.1 || r.2.2 ≠ [] then (inner.length + 2, false)
      else (inner.length + 2, true)

/-- `argNumber` when the call has no operand: the text after an index `[n]`, whether one
was found, and `goodArgNum` (no index is in range). -/
def argNumber (format : Text) (good : Bool) : Text × Bool × Bool :=
  match format with
  | '[' :: _ => (format.drop (parseArgNumber format).1, (parseArgNumber format).2, false)
  | _ => (format, false, good)

/-- The flags of a verb. -/
def isFlag (c : Char) : Bool := c = '#' || c = '0' || c = '+' || c = '-' || c = ' '

def badWidthString : Text := "%!(BADWIDTH)".toList
def badPrecString : Text := "%!(BADPREC)".toList
def noVerbString : Text := "%!(NOVERB)".toList

/-- What `doPrintf` writes for a format when the call has no operand. -/
def doPrintf : Nat → Text → Text
  | 0, _ => []
  | fuel + 1, format =>
    let lit := format.takeWhile (fun c => c ≠ '%')
    match format.dropWhile (fun c => c ≠ '%') with
    | [] => lit
    | _ :: r1 =>
      -- flags
      let r2 := r1.dropWhile isFlag
      -- explicit argument index
      let a1 := argNumber r2 true
      -- width
      let wd : Text × Text × Bool × Bool := match a1.1 with
        | '*' :: t => (badWidthString, t, false, a1.2.2)
        | _ => ([], (parsenum a1.1).2.2, a1.2.1, a1.2.2 && !(a1.2.1 && (parsenum a1.1).2.1))
      -- precision
      let pr : Text × Text × Bool × Bool := match wd.2.1 with
        | '.' :: t =>
          let a2 := argNumber t (wd.2.2.2 && !wd.2.2.1)
          match a2.1 with
          | '*' :: t2 => (badPrecString, t2, false, a2.2.2)
          | _ => ([], (parsenum a2.1).2.2, a2.2.1, a2.2.2)
        | _ => ([], wd.2.1, wd.2.2.1, wd.2.2.2)
      let a3 := if !pr.2.2.1 then argNumber pr.2.1 pr.2.2.2 else (pr.2.1, true, pr.2.2.2)
      match a3.1 with
      | [] => lit ++ wd.1 ++ pr.1 ++ noVerbString
      | verb :: r7 =>
        let o : Text :=
          if verb = '%' then ['%']
          else if !a3.2.2 then "%!".toList ++ verb :: "(BADINDEX)".toList
          else "%!".toList ++ verb :: "(MISSING)".toList
        lit ++ wd.1 ++ pr.1 ++ o ++ doPrintf fuel r7

/-- The bytes `fmt.Fprintf(writer, format)` writes: the format is interpreted, and every
verb finds its operand missing. -/
def Fprintf (format : Text) : Text := doPrintf (format.length + 1) format

/-- The bytes `fmt.Fprintf(writer, "Item with id %s not found", id)` writes: verb `%s`
prints the string operand as it is. -/
def FprintfNotFound (id : Text) : Text :=
  "Item with id ".toList ++ id ++ " not found".toList

/-! ## The file system and the writer -/

/-- How the system behaves during a call of `Perform`: which calls on the backing file fail,
how many bytes a failing `Write` has written when it fails (`write` is `none` when the
write succeeds), and the file position that the read-ahead of the JSON decoder leaves
behind. -/
structure Faults where
  openFile : Bool
  stat : Bool
  read : Bool
  truncate : Bool
  seek : Bool
  write : Option Nat
  decoderPos : Nat
  deriving DecidableEq, Repr

/-- No system call fails. The position the decoder leaves plays no role then, since
`Seek` resets it before the only write. -/
def Faults.none : Faults := ⟨false, false, false, false, false, Option.none, 0⟩

/-- The state `Perform` acts on: the content of every file that exists, by path, and the
bytes the writer has received. -/
structure World where
  files : Text → Option Text
  out : Text

/-- An open `*os.File`: its path and its read/write position. -/
structure File where
  name : Text
  pos : Nat
  deriving DecidableEq, Repr

/-- The content of an open file. -/
def World.content (w : World) (file : File) : Text := (w.files file.name).getD []

/-- The world with the content of one file replaced. -/
def World.setContent (w : World) (file : File) (data : Text) : World :=
  { w with files := fun n => if n = file.name then some data else w.files n }

/-- `os.OpenFile(name, os.O_RDWR|os.O_CREATE, 0666)`: a missing file is created empty. -/
def OpenFile (fl : Faults) (name : Text) (w : World) : Except Error File × World :=
  if fl.openFile then (.error (.path "open".toList), w)
  else
    match w.files name with
    | some _ => (.ok ⟨name, 0⟩, w)
    | none => (.ok ⟨name, 0⟩, w.setContent ⟨name, 0⟩ [])

/-- `file.Stat()` followed by `stat.Size()`. -/
def statSize (fl : Faults) (file : File) (w : World) : Except Error Nat :=
  if fl.stat then .error (.path "stat".toList) else .ok (w.content file).length

/-- `io.ReadAll(file)`: the content from the position on; the position moves to the end. -/
def ReadAll (fl : Faults) (file : File) (w : World) : Except Error Text × File :=
  if fl.read then (.error (.path "read".toList), file)
  else (.ok ((w.content file).drop file.pos), { file with pos := (w.content file).length })

/-- `json.NewDecoder(file).Decode(&items)`: the decoder reads the file from the position on
and decodes the first JSON value. It reads ahead in blocks, so the position it leaves is
not the end of the value: it is the one the system gives, at most the end of the file. -/
def Decode (fl : Faults) (file : File) (w : World) : Except Error (List User) × File :=
  if fl.read then (.error (.path "read".toList), file)
  else (jsonDecodeUsers ((w.content file).drop file.pos),
    { file with pos := min fl.decoderPos (w.content file).length })

/-- `file.Truncate(0)`; a failed call changes nothing. -/
def Truncate (fl : Faults) (file : File) (w : World) : Option Error × World :=
  if fl.truncate then (some (.path "truncate".toList), w) else (none, w.setContent file [])

/-- `file.Seek(0, 0)`; a failed call changes nothing. -/
def Seek (fl : Faults) (file : File) : Option Error × File :=
  if fl.seek then (some (.path "seek".toList), file) else (none, { file with pos := 0 })

/-- The content of a file after `bytes`, not empty, have been written at a position: they
replace what is there and extend the file (a gap before the position reads as zero
bytes). -/
def writeAt (old : Text) (pos : Nat) (bytes : Text) : Text :=
  (old ++ List.replicate (pos - old.length) (Char.ofNat 0)).take pos ++ bytes ++
    old.drop (pos + bytes.length)

/-- `file.Write(b)`: the bytes go to the position. A failing call has written a part of
them, fewer than asked for and possibly none, and returns the error. -/
def Write (fl : Faults) (file : File) (b : Text) (w : World) : Option Error × File × World :=
  match fl.write with
  | Option.none =>
    (Option.none, { file with pos := file.pos + b.length },
      if b = [] then w else w.setContent file (writeAt (w.content file) file.pos b))
  | some n =>
    let part := b.take (min n (b.length - 1))
    (some (.path "write".toList), { file with pos := file.pos + part.length },
      if part = [] then w else w.setContent file (writeAt (w.content file) file.pos part))

/-! ## The program -/

/-- `saveUsers` of `main.go`. The results of `Truncate` and `Seek` are dropped. -/
def saveUsers (fl : Faults) (file : File) (users : List User) (w : World) :
    Option Error × File × World :=
  let w := (Truncate fl file w).2
  let file := (Seek fl file).2
  match jsonMarshalUsers users with
  | .error err => (some err, file, w)
  | .ok usersBytes => Write fl file usersBytes w

/-- `readUsers` of `main.go`. -/
def readUsers (fl : Faults) (file : File) (w : World) : Except Error (List User) × File :=
  match statSize fl file w with
  | .error err => (.error err, file)
  | .ok size =>
    let items : List User := []
    if size > 0 then
      match Decode fl file w with
      | (.error err, file) => (.error err, file)
      | (.ok items, file) => (.ok items, file)
    else (.ok items, file)

/-- `strToUser` of `main.go`. -/
def strToUser (itemAsStr : Text) : Except Error User :=
  jsonUnmarshalUser itemAsStr

/-- The loop of the `findById` case: what it writes to the writer. It stops at the first
user with the id. -/
def findLoop (idToFind : Text) : List User → Except Error Text
  | [] => .ok []
  | user :: users =>
    if user.ID = idToFind then
      match jsonMarshalUser user with
      | .error err => .error err
      | .ok userRow => .ok (Fprintf userRow)
    else findLoop idToFind users

/-- The index at which the loop of the `remove` case finds the id. -/
def findIndex (idToRemove : Text) : List User → Option Nat
  | [] => none
  | user :: users =>
    if user.ID = idToRemove then some 0 else (findIndex idToRemove users).map (· + 1)

/-- `Perform` of `main.go`: the error it returns and the world it leaves. -/
def Perform (fl : Faults) (args : Arguments) (w : World) : Option Error × World :=
  match validateArgs args with
  | some err => (some err, w)
  | none =>
    match OpenFile fl (args.get "fileName".toList) w with
    | (.error err, w) => (some err, w)
    | (.ok file, w) =>
      let operation := args.get "operation".toList
      if operation = list then
        match ReadAll fl file w with
        | (.error err, _) => (some err, w)
        | (.ok fileData, _) => (none, { w with out := w.out ++ fileData })
      else if operation = add then
        match strToUser (args.get "item".toList) with
        | .error err => (some err, w)
        | .ok user =>
          match readUsers fl file w with
          | (.error err, _) => (some err, w)
          | (.ok users, file) =>
            let users := users ++ [user]
            match saveUsers fl file users w with
            | (some err, _, w) => (some err, w)
            | (none, _, w) => (none, w)
      else if operation = findById then
        match readUsers fl file w with
        | (.error err, _) => (some err, w)
        | (.ok users, _) =>
          let idToFind := args.get "id".toList
          let userFound := false
          match findLoop idToFind users with
          | .error err => (some err, w)
          | .ok written =>
            let w := { w with out := w.out ++ written }
            if !userFound then (none, { w with out := w.out ++ Fprintf [] }) else (none, w)
      else if operation = remove then
        match readUsers fl file w with
        | (.error err, _) => (some err, w)
        | (.ok users, file) =>
          let idToRemove := args.get "id".toList
          match findIndex idToRemove users with
          | some i =>
            let users := users.take i ++ users.drop (i + 1)
            (none, (saveUsers fl file users w).2.2)
          | none => (none, { w with out := w.out ++ FprintfNotFound idToRemove })
      else (none, w)

/-- `parseArgs` of `main.go`, on the values of the four flags. -/
def parseArgs (operationArg fileNameArg itemArg idArg : Text) : Arguments :=
  [("id".toList, idArg), ("operation".toList, operationArg), ("item".toList, itemArg),
    ("fileName".toList, fileNameArg)]

/-! ## Notions used to state and prove the properties -/

/-- The fold of `digitsVal`. -/
def digitsFold (acc : Option Nat) (cs : Text) : Option Nat :=
  cs.foldl (fun acc c => acc.bind fun n => if isDigit c then some (n * 10 + digitVal c) else none) acc

/-- A text at which a number literal ends: empty, or led by a character that continues
no number. -/
def endsNumber (rest : Text) : Prop :=
  ∀ c r, rest = c :: r → isDigit c = false ∧ c ≠ '.' ∧ c ≠ 'e' ∧ c ≠ 'E'

/-- The JSON value the encoding of a field's value reads back as. -/
def FieldVal.toJValue : FieldVal → JValue
  | .string s => .str s
  | .int i => .num (formatInt i)

/-- The encoding of one member of an object: its quoted name, a colon, its value. -/
def encodeMember (f : Text × FieldVal) : Text := appendString f.1 ++ ':' :: encodeValue f.2

/-- The members `json.Marshal` writes for a user: its fields that are not empty. -/
def User.members (u : User) : List (Text × FieldVal) :=
  u.fields.filter fun f => !isEmptyValue f.2

/-- The JSON value the encoding of a user reads back as. -/
def User.toJValue (u : User) : JValue :=
  .obj (u.members.map fun m => (m.1, m.2.toJValue))

/-- The values of `Age` a Go `int` holds. -/
def User.inRange (u : User) : Prop := -(2 : Int) ^ 63 ≤ u.Age ∧ u.Age < (2 : Int) ^ 63

/-- The collection a file content stands for: the empty collection for an empty file, else
what the decoder reads. -/
def storedUsers (data : Text) : Except Error (List User) :=
  if data = [] then .ok [] else jsonDecodeUsers data

/-- A text that is, as a whole, a JSON array of records: one JSON array, white space around
it apart, whose elements all decode as a `User`. -/
def isUserArray (data : Text) : Bool :=
  match parseJSON data with
  | some (.arr vs, rest) => skipSpace rest = [] && (decodeElems vs).isSome
  | _ => false

/-- The world after `os.OpenFile` on a path, when the call succeeds: a missing file exists
and is empty. -/
def World.opened (w : World) (name : Text) : World :=
  if (w.files name).isSome then w else w.setContent ⟨name, 0⟩ []

/-- A file system with one file, and a writer that has received nothing. -/
def World.single (name data : Text) : World :=
  ⟨fun n => if n = name then some data else none, []⟩

/-! ## Argument validation -/

/-- C1: `validateArgs` returns the first failure of the ordered list of checks (file name,
operation given, operation allowed, item for `add`, id for `remove` and `findById`), and
`nil` when no check fails; a missing key reads as the empty string. -/
theorem validateArgs_first_failure (args : Arguments) :
    (args.get "fileName".toList = [] → validateArgs args = some errNoFileNameFlag) ∧
    (args.get "fileName".toList ≠ [] → args.get "operation".toList = [] →
      validateArgs args = some errNoOperationFlag) ∧
    (args.get "fileName".toList ≠ [] → args.get "operation".toList ≠ [] →
      args.get "operation".toList ∉ ["add".toList, "list".toList, "findById".toList,
        "remove".toList] →
      validateArgs args = some (.msg ("Operation ".toList ++ args.get "operation".toList ++
        " not allowed!".toList))) ∧
    (args.get "fileName".toList ≠ [] → args.get "operation".toList = "add".toList →
      args.get "item".toList = [] → validateArgs args = some errNoItemFlag) ∧
    (args.get "fileName".toList ≠ [] →
      args.get "operation".toList = "remove".toList ∨
        args.get "operation".toList = "findById".toList →
      args.get "id".toList = [] → validateArgs args = some errNoIdFlag) ∧
    (args.get "fileName".toList ≠ [] →
      args.get "operation".toList ∈ ["add".toList, "list".toList, "findById".toList,
        "remove".toList] →
      ¬ (args.get "operation".toList = "add".toList ∧ args.get "item".toList = []) →
      ¬ ((args.get "operation".toList = "remove".toList ∨
          args.get "operation".toList = "findById".toList) ∧ args.get "id".toList = []) →
      validateArgs args = none) := by
  unfold validateArgs
  generalize args.get "fileName".toList = fileName
  generalize args.get "operation".toList = operation
  generalize args.get "item".toList = item
  generalize args.get "id".toList = id
  simp only [allowedOperations, add, list, findById, remove, errOperationNotAllowed,
    List.any_cons, List.any_nil, Bool.or_false, List.mem_cons, List.mem_singleton,
    List.not_mem_nil, or_false]
  refine ⟨?_, ?_, ?_, ?_, ?_, ?_⟩
  · intro h
    simp [h]
  · intro h1 h2
    simp [h1, h2]
  · intro h1 h2 h3
    simp only [not_or] at h3
    simp_all
  · intro h1 h2 h3
    subst h2
    simp [h1, h3]
  · intro h1 h2 h3
    rcases h2 with h2 | h2 <;> subst h2 <;> simp [h1, h3]
  · intro h1 h2 h3 h4
    rcases h2 with h2 | h2 | h2 | h2 <;> subst h2 <;> simp_all

/-- C2: when `validateArgs` returns an error, `Perform` returns that error and leaves the
files and the writer as they were. -/
theorem Perform_validation_error (fl : Faults) (args : Arguments) (w : World) (e : Error)
    (h : validateArgs args = some e) : Perform fl args w = (some e, w) := by
  simp [Perform, h]

/-- An instance of `Perform_validation_error`: no argument at all, on a world with one
file. -/
theorem Perform_validation_error_witness :
    validateArgs [] = some errNoFileNameFlag ∧
    Perform Faults.none [] ⟨fun n => if n = "db.json".toList then some "[]".toList else none, []⟩
      = (some errNoFileNameFlag,
          ⟨fun n => if n = "db.json".toList then some "[]".toList else none, []⟩) :=
  ⟨by decide, Perform_validation_error _ _ _ _ (by decide)⟩

/-! ## `encoding/json`: decoding an encoding gives the value back -/

theorem hex4_low : ∀ n, n < 128 →
    hex4 '0' '0' (hexDigit (n / 16)) (hexDigit (n % 16)) = some n := by decide

theorem hex4_2028 : hex4 '2' '0' '2' (hexDigit (0x2028 % 16)) = some 0x2028 := by decide
theorem hex4_2029 : hex4 '2' '0' '2' (hexDigit (0x2029 % 16)) = some 0x2029 := by decide

theorem strStep_uescape (a b c d : Char) (n : Nat) (tl : Text) (h : hex4 a b c d = some n)
    (hs : isSurrogate n = false) :
    strStep ('\\' :: 'u' :: a :: b :: c :: d :: tl) = some (some (Char.ofNat n), tl) := by
  simp [strStep, h, hs]

theorem strStep_escapeChar (c : Char) (tl : Text) :
    strStep (escapeChar c ++ tl) = some (some c, tl) := by
  unfold escapeChar
  split_ifs with h1 h2 h3 h4 h5 h6 h7 h8 h9
  · -- plain ASCII
    obtain ⟨ha, hb, hc, -, -, -⟩ := h2
    have : ¬ c.toNat < 32 := by omega
    simp [strStep, hb, hc, this]
  · rcases h3 with rfl | rfl <;> simp [strStep]
  · have : c = Char.ofNat 8 := by rw [← h4, Char.ofNat_toNat]
    subst this
    simp [strStep]
  · have : c = Char.ofNat 12 := by rw [← h5, Char.ofNat_toNat]
    subst this
    simp [strStep]
  · subst h6; simp [strStep]
  · subst h7; simp [strStep]
  · subst h8; simp [strStep]
  · have hs : isSurrogate c.toNat = false := by
      simp [isSurrogate]; omega
    have := strStep_uescape '0' '0' (hexDigit (c.toNat / 16)) (hexDigit (c.toNat % 16))
      c.toNat tl (hex4_low _ h1) hs
    simpa [Char.ofNat_toNat] using this
  · have hc : c = Char.ofNat 0x2028 ∨ c = Char.ofNat 0x2029 := by
      rcases h9 with h | h
      · left; rw [← h, Char.ofNat_toNat]
      · right; rw [← h, Char.ofNat_toNat]
    rcases hc with rfl | rfl
    · exact strStep_uescape '2' '0' '2' _ 0x2028 tl hex4_2028 (by decide)
    · exact strStep_uescape '2' '0' '2' _ 0x2029 tl hex4_2029 (by decide)
  · have h20 : ¬ c.toNat < 32 := by omega
    have hq : c ≠ '"' := by rintro rfl; exact h1 (by decide)
    have hb : c ≠ '\\' := by rintro rfl; exact h1 (by decide)
    simp [strStep, hq, hb, h20]

theorem escapeChar_length_pos (c : Char) : 0 < (escapeChar c).length := by
  unfold escapeChar
  split_ifs <;> simp

theorem strBody_escapeText (s : Text) : ∀ (fuel : Nat) (rest : Text),
    (escapeText s).length < fuel →
    strBody fuel (escapeText s ++ '"' :: rest) = some (s, rest) := by
  induction s with
  | nil =>
    intro fuel rest h
    cases fuel with
    | zero => simp at h
    | succ f => simp [escapeText, strBody, strStep]
  | cons c s ih =>
    intro fuel rest h
    cases fuel with
    | zero => simp at h
    | succ f =>
      have hpos := escapeChar_length_pos c
      simp only [escapeText, List.length_append] at h
      rw [escapeText, List.append_assoc, strBody, strStep_escapeChar]
      simp only
      rw [ih f rest (by omega)]
      rfl

theorem parseString_appendString (s rest : Text) :
    parseString (escapeText s ++ '"' :: rest) = some (s, rest) := by
  unfold parseString
  apply strBody_escapeText
  simp

theorem isDigit_digitChar (d : Nat) (h : d < 10) : isDigit (digitChar d) = true := by
  interval_cases d <;> decide

theorem digitVal_digitChar (d : Nat) (h : d < 10) : digitVal (digitChar d) = d := by
  interval_cases d <;> decide

theorem digitChar_ne_zero (d : Nat) (h : d < 10) (h0 : d ≠ 0) :
    digitChar d ≠ '0' := by
  interval_cases d <;> first | exact absurd rfl h0 | decide

theorem digitsFold_natDigits (fuel : Nat) : ∀ n, n < fuel →
    digitsFold (some 0) (natDigits fuel n) = some n := by
  induction fuel with
  | zero => intro n h; omega
  | succ f ih =>
    intro n h
    rw [natDigits]
    split_ifs with h10
    · have h1 := isDigit_digitChar n h10
      have h2 := digitVal_digitChar n h10
      simp [digitsFold, h1, h2]
    · have hlt : n / 10 < f := by omega
      have hd : n % 10 < 10 := Nat.mod_lt _ (by decide)
      have := ih (n / 10) hlt
      simp only [digitsFold] at this
      simp only [digitsFold, List.foldl_append, this, List.foldl_cons, List.foldl_nil,
        Option.some_bind, isDigit_digitChar _ hd, digitVal_digitChar _ hd, if_true]
      rw [Nat.div_add_mod']

theorem natDigits_ne_nil (fuel n : Nat) (h : n < fuel) : natDigits fuel n ≠ [] := by
  cases fuel with
  | zero => omega
  | succ f =>
    rw [natDigits]
    split_ifs <;> simp

theorem digitsVal_natDigits (fuel n : Nat) (h : n < fuel) :
    digitsVal (natDigits fuel n) = some n := by
  unfold digitsVal
  rw [if_neg (natDigits_ne_nil fuel n h)]
  exact digitsFold_natDigits fuel n h

theorem natDigits_all (fuel : Nat) : ∀ n, ∀ c ∈ natDigits fuel n, isDigit c = true := by
  induction fuel with
  | zero => intro n c h; simp [natDigits] at h
  | succ f ih =>
    intro n c h
    rw [natDigits] at h
    split_ifs at h with h10
    · simp only [List.mem_singleton] at h
      subst h
      exact isDigit_digitChar n h10
    · simp only [List.mem_append, List.mem_singleton] at h
      rcases h with h | h
      · exact ih _ c h
      · subst h
        exact isDigit_digitChar _ (Nat.mod_lt _ (by decide))

theorem natDigits_head (fuel : Nat) : ∀ n, n < fuel → 0 < n →
    ∃ d ds, natDigits fuel n = d :: ds ∧ d ≠ '0' := by
  induction fuel with
  | zero => intro n h; omega
  | succ f ih =>
    intro n h hpos
    rw [natDigits]
    split_ifs with h10
    · exact ⟨_, [], rfl, digitChar_ne_zero n h10 (by omega)⟩
    · obtain ⟨d, ds, hd, hne⟩ := ih (n / 10) (by omega) (by omega)
      exact ⟨d, ds ++ [digitChar (n % 10)], by rw [hd]; rfl, hne⟩


theorem takeDigits_append (ds rest : Text) (hds : ∀ c ∈ ds, isDigit c = true)
    (hrest : ∀ c r, rest = c :: r → isDigit c = false) :
    takeDigits (ds ++ rest) = (ds, rest) := by
  induction ds with
  | nil =>
    cases rest with
    | nil => rfl
    | cons c r => simp [takeDigits, hrest c r rfl]
  | cons d ds ih =>
    have hd := hds d (List.mem_cons_self _ _)
    have := ih (fun c hc => hds c (List.mem_cons_of_mem _ hc))
    simp [takeDigits, hd, this]

theorem scanFrac_end (rest : Text) (h : endsNumber rest) : scanFrac rest = some ([], rest) := by
  cases rest with
  | nil => rfl
  | cons c r => simp [scanFrac, (h c r rfl).2.1]

theorem scanExp_end (rest : Text) (h : endsNumber rest) : scanExp rest = some ([], rest) := by
  cases rest with
  | nil => rfl
  | cons c r => simp [scanExp, (h c r rfl).2.2.1, (h c r rfl).2.2.2]

theorem scanNumber_digits (d : Char) (ds rest : Text) (hd : isDigit d = true) (h0 : d ≠ '0')
    (hds : ∀ c ∈ ds, isDigit c = true) (hrest : endsNumber rest) :
    scanNumber (d :: ds ++ rest) = some (d :: ds, rest) := by
  have hm : d ≠ '-' := by rintro rfl; revert hd; decide
  have ht := takeDigits_append ds rest hds (fun c r h => (hrest c r h).1)
  simp [scanNumber, scanSign, hm, scanInt, h0, hd, ht, scanFrac_end rest hrest,
    scanExp_end rest hrest]

theorem scanNumber_neg_digits (d : Char) (ds rest : Text) (hd : isDigit d = true)
    (h0 : d ≠ '0') (hds : ∀ c ∈ ds, isDigit c = true) (hrest : endsNumber rest) :
    scanNumber ('-' :: d :: ds ++ rest) = some ('-' :: d :: ds, rest) := by
  have ht := takeDigits_append ds rest hds (fun c r h => (hrest c r h).1)
  simp [scanNumber, scanSign, scanInt, h0, hd, ht, scanFrac_end rest hrest,
    scanExp_end rest hrest]


theorem natDigits_shape (n : Nat) (h : 0 < n) :
    ∃ d ds, natDigits (n + 1) n = d :: ds ∧ isDigit d = true ∧ d ≠ '0' ∧
      ∀ c ∈ ds, isDigit c = true := by
  obtain ⟨d, ds, hd, hne⟩ := natDigits_head (n + 1) n (by omega) h
  have hall := natDigits_all (n + 1) n
  rw [hd] at hall
  exact ⟨d, ds, hd, hall d (List.mem_cons_self _ _), hne,
    fun c hc => hall c (List.mem_cons_of_mem _ hc)⟩

theorem scanNumber_formatInt (i : Int) (h : i ≠ 0) (rest : Text) (hrest : endsNumber rest) :
    scanNumber (formatInt i ++ rest) = some (formatInt i, rest) := by
  have hpos : 0 < i.natAbs := Int.natAbs_pos.mpr h
  obtain ⟨d, ds, hd, h1, h2, h3⟩ := natDigits_shape i.natAbs hpos
  unfold formatInt
  split_ifs with hneg
  · rw [hd]
    exact scanNumber_neg_digits d ds rest h1 h2 h3 hrest
  · rw [hd]
    exact scanNumber_digits d ds rest h1 h2 h3 hrest

theorem parseInt_digits (d : Char) (ds : Text) (hd : isDigit d = true) :
    parseInt (d :: ds) = match digitsVal (d :: ds) with
      | some n => if n < 2 ^ 63 then some (n : Int) else none
      | none => none := by
  have hm : d ≠ '-' := by rintro rfl; revert hd; decide
  have hp : d ≠ '+' := by rintro rfl; revert hd; decide
  unfold parseInt
  split
  · rename_i heq
    exact absurd (List.cons.inj heq).1 hm
  · rename_i heq
    exact absurd (List.cons.inj heq).1 hp
  · rfl

theorem parseInt_formatInt (i : Int) (h : i ≠ 0) (hlo : -(2 : Int) ^ 63 ≤ i)
    (hhi : i < (2 : Int) ^ 63) : parseInt (formatInt i) = some i := by
  have hpos : 0 < i.natAbs := Int.natAbs_pos.mpr h
  obtain ⟨d, ds, hd, h1, -, -⟩ := natDigits_shape i.natAbs hpos
  have hv := digitsVal_natDigits (i.natAbs + 1) i.natAbs (by omega)
  unfold formatInt
  split_ifs with hneg
  · have hb : i.natAbs ≤ 2 ^ 63 := by omega
    simp only [parseInt, hv, hb, if_true]
    congr 1
    omega
  · rw [hd, parseInt_digits d ds h1, ← hd, hv]
    have hb : i.natAbs < 2 ^ 63 := by omega
    simp only [hb, if_true]
    congr 1
    omega

theorem skipSpace_cons (c : Char) (cs : Text) (h : isSpace c = false) :
    skipSpace (c :: cs) = c :: cs := by
  simp [skipSpace, h]

theorem parseValue_string (fuel depth : Nat) (s rest : Text) :
    parseValue (fuel + 1) depth (appendString s ++ rest) = some (.str s, rest) := by
  have := parseString_appendString s rest
  simp [appendString, parseValue, skipSpace, isSpace, this]

theorem formatInt_head (i : Int) (h : i ≠ 0) :
    ∃ c cs, formatInt i = c :: cs ∧ (c = '-' ∨ isDigit c = true) := by
  have hpos : 0 < i.natAbs := Int.natAbs_pos.mpr h
  obtain ⟨d, ds, hd, h1, -, -⟩ := natDigits_shape i.natAbs hpos
  unfold formatInt
  split_ifs
  · exact ⟨'-', _, rfl, Or.inl rfl⟩
  · exact ⟨d, ds, hd, Or.inr h1⟩

theorem isDigit_class (c : Char) (hd : isDigit c = true) :
    isSpace c = false ∧ c ≠ '{' ∧ c ≠ '[' ∧ c ≠ '"' := by
  refine ⟨?_, ?_, ?_, ?_⟩
  · cases hsp : isSpace c with
    | false => rfl
    | true =>
      simp only [isSpace, Bool.or_eq_true, decide_eq_true_eq] at hsp
      rcases hsp with ((rfl | rfl) | rfl) | rfl <;> revert hd <;> decide
  · rintro rfl; revert hd; decide
  · rintro rfl; revert hd; decide
  · rintro rfl; revert hd; decide

theorem parseValue_number (fuel depth : Nat) (c : Char) (cs : Text)
    (hc : c = '-' ∨ isDigit c = true) :
    parseValue (fuel + 1) depth (c :: cs)
      = (scanNumber (c :: cs)).map fun p => (.num p.1, p.2) := by
  have hcl : isSpace c = false ∧ c ≠ '{' ∧ c ≠ '[' ∧ c ≠ '"' := by
    rcases hc with rfl | hd
    · decide
    · exact isDigit_class c hd
  obtain ⟨h1, h2, h3, h4⟩ := hcl
  rw [parseValue, skipSpace_cons c cs h1]
  simp only [h2, h3, h4, if_false, hc, if_true]

theorem parseValue_int (fuel depth : Nat) (i : Int) (h : i ≠ 0) (rest : Text)
    (hrest : endsNumber rest) :
    parseValue (fuel + 1) depth (formatInt i ++ rest) = some (.num (formatInt i), rest) := by
  have hs := scanNumber_formatInt i h rest hrest
  obtain ⟨c, cs, hc, hcd⟩ := formatInt_head i h
  rw [hc] at hs ⊢
  rw [List.cons_append, parseValue_number fuel depth c _ hcd, ← List.cons_append, hs]
  rfl


theorem endsNumber_comma (r : Text) : endsNumber (',' :: r) := by
  intro c r1 h
  obtain ⟨rfl, -⟩ := List.cons.inj h
  decide

theorem endsNumber_brace (r : Text) : endsNumber ('}' :: r) := by
  intro c r1 h
  obtain ⟨rfl, -⟩ := List.cons.inj h
  decide

theorem parseValue_field (fuel depth : Nat) (v : FieldVal) (hv : isEmptyValue v = false)
    (rest : Text) (hrest : endsNumber rest) :
    parseValue (fuel + 1) depth (encodeValue v ++ rest) = some (v.toJValue, rest) := by
  cases v with
  | string s => exact parseValue_string fuel depth s rest
  | int i =>
    have hi : i ≠ 0 := by simpa [isEmptyValue] using hv
    exact parseValue_int fuel depth i hi rest hrest

theorem parseMembers_last (fuel depth : Nat) (k : Text) (v : FieldVal)
    (hv : isEmptyValue v = false) (rest : Text) :
    parseMembers (fuel + 2) depth (encodeMember (k, v) ++ '}' :: rest)
      = some ([(k, v.toJValue)], rest) := by
  have hs := parseString_appendString k (':' :: (encodeValue v ++ '}' :: rest))
  have hval := parseValue_field fuel depth v hv _ (endsNumber_brace rest)
  rw [parseMembers]
  simp only [encodeMember, appendString, List.cons_append, List.append_assoc,
    List.nil_append]
  rw [skipSpace_cons _ _ (by decide)]
  simp only [hs]
  rw [skipSpace_cons _ _ (by decide)]
  simp only [hval]
  rw [skipSpace_cons _ _ (by decide)]
  rfl

theorem parseMembers_more (fuel depth : Nat) (k : Text) (v : FieldVal)
    (hv : isEmptyValue v = false) (rest : Text) :
    parseMembers (fuel + 2) depth (encodeMember (k, v) ++ ',' :: rest)
      = (parseMembers (fuel + 1) depth rest).map fun p => ((k, v.toJValue) :: p.1, p.2) := by
  have hs := parseString_appendString k (':' :: (encodeValue v ++ ',' :: rest))
  have hval := parseValue_field fuel depth v hv _ (endsNumber_comma rest)
  rw [parseMembers]
  simp only [encodeMember, appendString, List.cons_append, List.append_assoc,
    List.nil_append]
  rw [skipSpace_cons _ _ (by decide)]
  simp only [hs]
  rw [skipSpace_cons _ _ (by decide)]
  simp only [hval]
  rw [skipSpace_cons _ _ (by decide)]
  rfl

theorem parseMembers_join (depth : Nat) (rest : Text) :
    ∀ (ms : List (Text × FieldVal)), ms ≠ [] → (∀ m ∈ ms, isEmptyValue m.2 = false) →
    ∀ fuel, ms.length + 1 ≤ fuel →
    parseMembers fuel depth (joinComma (ms.map encodeMember) ++ '}' :: rest)
      = some (ms.map (fun m => (m.1, m.2.toJValue)), rest) := by
  intro ms
  induction ms with
  | nil => intro h; exact absurd rfl h
  | cons m ms ih =>
    intro _ hall fuel hfuel
    obtain ⟨f, rfl⟩ : ∃ f, fuel = f + 2 := ⟨fuel - 2, by simp at hfuel; omega⟩
    have hm := hall m (List.mem_cons_self _ _)
    cases ms with
    | nil =>
      simp only [List.map_cons, List.map_nil, joinComma]
      exact parseMembers_last f depth m.1 m.2 hm rest
    | cons m2 ms2 =>
      have ih2 := ih (by simp) (fun x hx => hall x (List.mem_cons_of_mem _ hx)) (f + 1)
        (by simp at hfuel ⊢; omega)
      simp only [List.map_cons, joinComma, List.append_assoc, List.cons_append]
      rw [show m = (m.1, m.2) from rfl, parseMembers_more f depth m.1 m.2 hm _]
      simp only [List.map_cons, joinComma] at ih2
      simp only [ih2]
      rfl


theorem marshalUser_eq (u : User) :
    marshalUser u = '{' :: joinComma (u.members.map encodeMember) ++ ['}'] := rfl

theorem User.members_eq (u : User) :
    u.members = (if u.ID = [] then [] else [("id".toList, FieldVal.string u.ID)])
      ++ ((if u.Email = [] then [] else [("email".toList, FieldVal.string u.Email)])
      ++ (if u.Age = 0 then [] else [("age".toList, FieldVal.int u.Age)])) := by
  rcases u with ⟨id, email, age⟩
  by_cases h1 : id = [] <;> by_cases h2 : email = [] <;> by_cases h3 : age = 0 <;>
    simp [User.members, User.fields, List.filter, isEmptyValue, h1, h2, h3]

theorem User.members_nonEmpty (u : User) : ∀ m ∈ u.members, isEmptyValue m.2 = false := by
  intro m hm
  simp only [User.members, List.mem_filter, Bool.not_eq_true'] at hm
  exact hm.2

theorem User.members_length (u : User) : u.members.length ≤ 3 := by
  have := List.length_filter_le (fun f : Text × FieldVal => !isEmptyValue f.2) u.fields
  simpa [User.members, User.fields] using this

theorem joinComma_head (m : Text × FieldVal) (ms : List (Text × FieldVal)) :
    ∃ t, joinComma ((m :: ms).map encodeMember) = '"' :: t := by
  cases ms with
  | nil => exact ⟨_, rfl⟩
  | cons m2 ms2 => exact ⟨_, rfl⟩

theorem parseValue_user (u : User) (rest : Text) (fuel depth : Nat) (hfuel : 5 ≤ fuel)
    (hdepth : depth < maxNestingDepth) :
    parseValue fuel depth (marshalUser u ++ rest) = some (u.toJValue, rest) := by
  obtain ⟨f, rfl⟩ : ∃ f, fuel = f + 1 := ⟨fuel - 1, by omega⟩
  have hd : ¬ (depth + 1 > maxNestingDepth) := by omega
  rw [marshalUser_eq, parseValue]
  simp only [List.cons_append, List.append_assoc, List.nil_append]
  rw [skipSpace_cons _ _ (by decide)]
  simp only [if_true, hd, if_false]
  cases hms : u.members with
  | nil =>
    simp only [List.map_nil, joinComma, List.nil_append, User.toJValue, hms]
    rw [skipSpace_cons _ _ (by decide)]
    rfl
  | cons m ms =>
    have hj := parseMembers_join (depth + 1) rest (m :: ms) (by simp)
      (by rw [← hms]; exact u.members_nonEmpty) f
      (by have := u.members_length; rw [hms] at this; omega)
    obtain ⟨t, ht⟩ := joinComma_head m ms
    rw [ht] at hj ⊢
    simp only [List.cons_append] at hj ⊢
    rw [skipSpace_cons _ _ (by decide)]
    simp only [hj, User.toJValue, hms]
    rfl

theorem keyMatches_names :
    keyMatches "id".toList "id".toList = true ∧
    keyMatches "email".toList "id".toList = false ∧
    keyMatches "email".toList "email".toList = true ∧
    keyMatches "age".toList "id".toList = false ∧
    keyMatches "age".toList "email".toList = false ∧
    keyMatches "age".toList "age".toList = true := by decide

theorem setField_id (u : User) (s : Text) :
    setField u ("id".toList, .str s) = some { u with ID := s } := by
  simp only [setField, keyMatches_names.1, if_true]

theorem setField_email (u : User) (s : Text) :
    setField u ("email".toList, .str s) = some { u with Email := s } := by
  simp only [setField, keyMatches_names.2.1, keyMatches_names.2.2.1, if_true, if_false,
    Bool.false_eq_true]

theorem setField_age (u : User) (i : Int) (h0 : i ≠ 0) (hlo : -(2 : Int) ^ 63 ≤ i)
    (hhi : i < (2 : Int) ^ 63) :
    setField u ("age".toList, .num (formatInt i)) = some { u with Age := i } := by
  simp only [setField, keyMatches_names.2.2.2.1, keyMatches_names.2.2.2.2.1,
    keyMatches_names.2.2.2.2.2, if_true, if_false, Bool.false_eq_true,
    parseInt_formatInt i h0 hlo hhi]

theorem decodeUser_toJValue (u : User) (h : u.inRange) :
    decodeUser ⟨[], [], 0⟩ u.toJValue = some u := by
  rcases u with ⟨id, email, age⟩
  obtain ⟨hlo, hhi⟩ := h
  simp only at hlo hhi
  simp only [User.toJValue, User.members_eq, decodeUser]
  by_cases h1 : id = [] <;> by_cases h2 : email = [] <;> by_cases h3 : age = 0
  all_goals
    first
    | simp only [h1, h2, h3, if_true, if_false, List.nil_append, List.cons_append,
        List.map_cons, List.map_nil, FieldVal.toJValue, setFields, setField_id,
        setField_email, setField_age _ age h3 hlo hhi]
    | simp only [h1, h2, h3, if_true, if_false, List.nil_append, List.cons_append,
        List.map_cons, List.map_nil, FieldVal.toJValue, setFields, setField_id,
        setField_email]


theorem joinComma_marshalUser_head (u : User) (us : List User) :
    ∃ t, joinComma ((u :: us).map marshalUser) = '{' :: t := by
  cases us with
  | nil => exact ⟨_, rfl⟩
  | cons u2 us2 => exact ⟨_, rfl⟩

theorem parseElems_join (depth : Nat) (hdepth : depth < maxNestingDepth) (rest : Text) :
    ∀ (us : List User), us ≠ [] → ∀ fuel, us.length + 5 ≤ fuel →
    parseElems fuel depth (joinComma (us.map marshalUser) ++ ']' :: rest)
      = some (us.map User.toJValue, rest) := by
  intro us
  induction us with
  | nil => intro h; exact absurd rfl h
  | cons u us ih =>
    intro _ fuel hfuel
    obtain ⟨f, rfl⟩ : ∃ f, fuel = f + 1 := ⟨fuel - 1, by simp at hfuel; omega⟩
    simp only [List.length_cons] at hfuel
    cases us with
    | nil =>
      simp only [List.map_cons, List.map_nil, joinComma]
      rw [parseElems, parseValue_user u _ f depth (by omega) hdepth]
      simp only
      rw [skipSpace_cons _ _ (by decide)]
      rfl
    | cons u2 us2 =>
      have ih2 := ih (by simp) f (by simp at hfuel ⊢; omega)
      simp only [List.map_cons, joinComma, List.append_assoc, List.cons_append] at ih2 ⊢
      rw [parseElems, parseValue_user u _ f depth (by omega) hdepth]
      simp only
      rw [skipSpace_cons _ _ (by decide)]
      simp only [ih2]
      rfl

theorem marshalUser_length (u : User) : 2 ≤ (marshalUser u).length := by
  rw [marshalUser_eq]
  simp

theorem joinComma_length (us : List User) :
    us.length ≤ (joinComma (us.map marshalUser)).length := by
  induction us with
  | nil => simp [joinComma]
  | cons u us ih =>
    cases us with
    | nil =>
      have := marshalUser_length u
      simp only [List.map_cons, List.map_nil, joinComma, List.length_singleton]
      omega
    | cons u2 us2 =>
      simp only [List.map_cons, joinComma, List.length_append, List.length_cons] at ih ⊢
      omega

theorem parseJSON_marshalUsers (us : List User) (rest : Text) :
    parseJSON (marshalUsers us ++ rest) = some (.arr (us.map User.toJValue), rest) := by
  unfold parseJSON marshalUsers
  have hd : ¬ (0 + 1 > maxNestingDepth) := by decide
  rw [show 2 * ('[' :: joinComma (us.map marshalUser) ++ [']'] ++ rest).length + 2
    = (2 * ('[' :: joinComma (us.map marshalUser) ++ [']'] ++ rest).length + 1) + 1 from rfl,
    parseValue]
  simp only [List.cons_append, List.append_assoc, List.nil_append]
  rw [skipSpace_cons _ _ (by decide)]
  simp only [if_true, hd, if_false, show ¬ ('[' = '{') by decide]
  cases us with
  | nil =>
    simp only [List.map_nil, joinComma, List.nil_append]
    rw [skipSpace_cons _ _ (by decide)]
    rfl
  | cons u us2 =>
    have hlen := joinComma_length (u :: us2)
    have hj := parseElems_join (0 + 1) (by decide) rest (u :: us2) (by simp)
      (2 * ('[' :: (joinComma ((u :: us2).map marshalUser) ++ ']' :: rest)).length + 1)
      (by simp only [List.length_cons, List.length_append] at hlen ⊢; omega)
    obtain ⟨t, ht⟩ := joinComma_marshalUser_head u us2
    rw [ht] at hj ⊢
    simp only [List.cons_append] at hj ⊢
    rw [skipSpace_cons _ _ (by decide)]
    simp only [hj]
    rfl

theorem decodeElems_toJValue (us : List User) (h : ∀ u ∈ us, u.inRange) :
    decodeElems (us.map User.toJValue) = some us := by
  induction us with
  | nil => rfl
  | cons u us ih =>
    have h1 := decodeUser_toJValue u (h u (List.mem_cons_self _ _))
    have h2 := ih (fun x hx => h x (List.mem_cons_of_mem _ hx))
    simp only [List.map_cons, decodeElems, h1, h2]

/-- Round trip: decoding the encoding of a collection gives the collection back, whatever
text follows the encoding. -/
theorem jsonDecodeUsers_marshalUsers (us : List User) (h : ∀ u ∈ us, u.inRange)
    (rest : Text) : jsonDecodeUsers (marshalUsers us ++ rest) = .ok us := by
  simp only [jsonDecodeUsers, parseJSON_marshalUsers, decodeUsers, decodeElems_toJValue us h]

theorem parseJSON_marshalUser (u : User) :
    parseJSON (marshalUser u) = some (u.toJValue, []) := by
  have := parseValue_user u [] (2 * (marshalUser u).length + 2) 0
    (by have := marshalUser_length u; omega) (by decide)
  rw [List.append_nil] at this
  exact this

/-- Round trip for one record. -/
theorem jsonUnmarshalUser_marshalUser (u : User) (h : u.inRange) :
    jsonUnmarshalUser (marshalUser u) = .ok u := by
  simp only [jsonUnmarshalUser, parseJSON_marshalUser, skipSpace, if_true,
    decodeUser_toJValue u h]


theorem parseInt_inRange (s : Text) (n : Int) (h : parseInt s = some n) :
    -(2 : Int) ^ 63 ≤ n ∧ n < (2 : Int) ^ 63 := by
  unfold parseInt at h
  split at h
  · split at h
    · split_ifs at h with hb
      cases h
      constructor <;> omega
    · cases h
  · split at h
    · split_ifs at h with hb
      cases h
      constructor <;> omega
    · cases h
  · split at h
    · split_ifs at h with hb
      cases h
      constructor <;> omega
    · cases h

theorem setField_inRange (u u1 : User) (kv : Text × JValue) (hu : u.inRange)
    (h : setField u kv = some u1) : u1.inRange := by
  unfold setField at h
  split_ifs at h
  · split at h
    · cases h; exact hu
    · cases h; exact hu
    · cases h
  · split at h
    · cases h; exact hu
    · cases h; exact hu
    · cases h
  · split at h
    · split at h
      · rename_i n hn
        cases h
        exact parseInt_inRange _ n hn
      · cases h
    · cases h; exact hu
    · cases h
  · cases h; exact hu

theorem setFields_inRange (kvs : List (Text × JValue)) : ∀ (u u1 : User), u.inRange →
    setFields u kvs = some u1 → u1.inRange := by
  induction kvs with
  | nil => intro u u1 hu h; cases h; exact hu
  | cons kv kvs ih =>
    intro u u1 hu h
    rw [setFields] at h
    split at h
    · rename_i u2 h2
      exact ih u2 u1 (setField_inRange u u2 kv hu h2) h
    · cases h

theorem zeroUser_inRange : User.inRange ⟨[], [], 0⟩ := by
  constructor <;> decide

theorem decodeUser_inRange (v : JValue) (u : User) (h : decodeUser ⟨[], [], 0⟩ v = some u) :
    u.inRange := by
  unfold decodeUser at h
  split at h
  · exact setFields_inRange _ _ u zeroUser_inRange h
  · cases h; exact zeroUser_inRange
  · cases h

theorem decodeElems_inRange (vs : List JValue) : ∀ (us : List User),
    decodeElems vs = some us → ∀ u ∈ us, u.inRange := by
  induction vs with
  | nil => intro us h u hu; cases h; cases hu
  | cons v vs ih =>
    intro us h u hu
    rw [decodeElems] at h
    split at h
    · rename_i u1 us1 h1 h2
      cases h
      rcases List.mem_cons.mp hu with rfl | hmem
      · exact decodeUser_inRange v u h1
      · exact ih us1 h2 u hmem
    · cases h

theorem jsonDecodeUsers_inRange (data : Text) (us : List User)
    (h : jsonDecodeUsers data = .ok us) : ∀ u ∈ us, u.inRange := by
  unfold jsonDecodeUsers at h
  split at h
  · rename_i v rest hp
    split at h
    · rename_i us1 hd
      cases h
      unfold decodeUsers at hd
      split at hd
      · exact decodeElems_inRange _ _ hd
      · cases hd; intro u hu; cases hu
      · cases hd
    · cases h
  · cases h

theorem strToUser_inRange (item : Text) (u : User) (h : strToUser item = .ok u) :
    u.inRange := by
  unfold strToUser jsonUnmarshalUser at h
  split at h
  · split_ifs at h
    split at h
    · rename_i u1 hd
      cases h
      exact decodeUser_inRange _ _ hd
    · cases h
  · cases h

/-! ## `Perform` when no system call fails -/

theorem strToUser_nil : strToUser [] = .error .json := by decide

theorem validateArgs_ok (args : Arguments)
    (hname : args.get "fileName".toList ≠ [])
    (hop : args.get "operation".toList ∈ allowedOperations)
    (hitem : args.get "operation".toList = add → args.get "item".toList ≠ [])
    (hid : args.get "operation".toList = remove ∨ args.get "operation".toList = findById →
      args.get "id".toList ≠ []) :
    validateArgs args = none := by
  unfold validateArgs
  generalize args.get "fileName".toList = fileName at *
  generalize args.get "operation".toList = operation at *
  generalize args.get "item".toList = item at *
  generalize args.get "id".toList = id at *
  simp only [allowedOperations, add, list, findById, remove, List.mem_cons,
    List.mem_singleton, List.not_mem_nil, or_false] at hop hitem hid
  simp only [allowedOperations, add, list, findById, remove, errOperationNotAllowed,
    List.any_cons, List.any_nil, Bool.or_false]
  rcases hop with h | h | h | h <;> subst h <;> simp_all

theorem validateArgs_none_operation (args : Arguments) (h : validateArgs args = none) :
    args.get "operation".toList ∈ allowedOperations := by
  unfold validateArgs at h
  generalize args.get "fileName".toList = fileName at *
  generalize args.get "operation".toList = operation at *
  generalize args.get "item".toList = item at *
  generalize args.get "id".toList = id at *
  by_contra hno
  have : (allowedOperations.any fun v => decide (operation = v)) = false := by
    simpa [allowedOperations] using hno
  simp only [this, Bool.not_false, if_true] at h
  split_ifs at h

theorem World.content_setContent (w : World) (file file1 : File) (data : Text)
    (h : file1.name = file.name) : (w.setContent file data).content file1 = data := by
  simp [World.content, World.setContent, h]

theorem World.setContent_setContent (w : World) (file file1 : File) (d1 d2 : Text)
    (h : file1.name = file.name) :
    (w.setContent file d1).setContent file1 d2 = w.setContent file d2 := by
  simp only [World.setContent, h]
  congr 1
  funext n
  by_cases hn : n = file.name <;> simp [hn]

theorem World.opened_setContent (w : World) (name : Text) (pos : Nat) (d : Text) :
    (w.opened name).setContent ⟨name, pos⟩ d = w.setContent ⟨name, 0⟩ d := by
  unfold World.opened
  split_ifs
  · rfl
  · exact World.setContent_setContent w ⟨name, 0⟩ ⟨name, pos⟩ [] d rfl

theorem World.opened_files (w : World) (name : Text) :
    ((w.opened name).files name).getD [] = (w.files name).getD [] := by
  unfold World.opened
  cases h : w.files name <;> simp [World.setContent, h]

theorem World.opened_out (w : World) (name : Text) : (w.opened name).out = w.out := by
  unfold World.opened
  split_ifs <;> rfl

theorem World.opened_of_some (w : World) (name data : Text) (h : w.files name = some data) :
    w.opened name = w := by
  simp [World.opened, h]

theorem marshalUsers_ne_nil (us : List User) : marshalUsers us ≠ [] := by
  simp [marshalUsers]

theorem writeAt_nil_zero (b : Text) : writeAt [] 0 b = b := by
  simp [writeAt]

theorem saveUsers_noFault (file : File) (users : List User) (w : World) :
    saveUsers Faults.none file users w
      = (none, ⟨file.name, (marshalUsers users).length⟩,
          w.setContent file (marshalUsers users)) := by
  simp [saveUsers, Truncate, Seek, Write, Faults.none, jsonMarshalUsers,
    World.content_setContent, World.setContent_setContent, marshalUsers_ne_nil,
    writeAt_nil_zero]

theorem readUsers_noFault (name : Text) (w : World) :
    (readUsers Faults.none ⟨name, 0⟩ w).1 = storedUsers ((w.files name).getD []) ∧
    (readUsers Faults.none ⟨name, 0⟩ w).2.name = name := by
  simp only [readUsers, statSize, Faults.none, Decode, World.content, storedUsers]
  by_cases h : (w.files name).getD [] = []
  · simp [h]
  · have : ((w.files name).getD []).length > 0 := List.length_pos.mpr h
    simp only [Bool.false_eq_true, if_false, this, if_true, List.drop_zero, h]
    cases jsonDecodeUsers ((w.files name).getD []) <;> exact ⟨rfl, rfl⟩

theorem OpenFile_noFault (name : Text) (w : World) :
    OpenFile Faults.none name w = (.ok ⟨name, 0⟩, w.opened name) := by
  simp only [OpenFile, Faults.none, World.opened]
  cases h : w.files name <;> simp

theorem ReadAll_noFault (name : Text) (w : World) :
    (ReadAll Faults.none ⟨name, 0⟩ w).1 = .ok ((w.files name).getD []) := by
  simp [ReadAll, Faults.none, World.content]

/-- `Perform` when no system call fails and the arguments are valid, one operation at a
time. -/
theorem Perform_list (args : Arguments) (w : World) (hv : validateArgs args = none)
    (hop : args.get "operation".toList = list) :
    Perform Faults.none args w
      = (none, { w.opened (args.get "fileName".toList) with
          out := w.out ++ (w.files (args.get "fileName".toList)).getD [] }) := by
  unfold Perform
  rw [hv]
  simp only [OpenFile_noFault, hop, if_true]
  have h := ReadAll_noFault (args.get "fileName".toList) (w.opened (args.get "fileName".toList))
  rw [World.opened_files] at h
  cases hr : ReadAll Faults.none ⟨args.get "fileName".toList, 0⟩
    (w.opened (args.get "fileName".toList)) with
  | mk r f =>
    rw [hr] at h
    simp only at h
    subst h
    simp only [World.opened_out]

theorem Perform_add (args : Arguments) (w : World) (hv : validateArgs args = none)
    (hop : args.get "operation".toList = add) (r : User) (c : List User)
    (hitem : strToUser (args.get "item".toList) = .ok r)
    (hc : storedUsers ((w.files (args.get "fileName".toList)).getD []) = .ok c) :
    Perform Faults.none args w
      = (none, w.setContent ⟨args.get "fileName".toList, 0⟩ (marshalUsers (c ++ [r]))) := by
  unfold Perform
  rw [hv]
  have hl : ¬ (add = list) := by decide
  simp only [OpenFile_noFault, hop, hl, if_false, if_true, hitem]
  obtain ⟨h1, h2⟩ := readUsers_noFault (args.get "fileName".toList)
    (w.opened (args.get "fileName".toList))
  rw [World.opened_files, hc] at h1
  cases hr : readUsers Faults.none ⟨args.get "fileName".toList, 0⟩
    (w.opened (args.get "fileName".toList)) with
  | mk res f =>
    rw [hr] at h1 h2
    simp only at h1 h2
    subst h1
    rcases f with ⟨fname, fpos⟩
    simp only at h2
    subst h2
    simp only [saveUsers_noFault, World.opened_setContent]

theorem Perform_findById (args : Arguments) (w : World) (hv : validateArgs args = none)
    (hop : args.get "operation".toList = findById) (c : List User) (written : Text)
    (hc : storedUsers ((w.files (args.get "fileName".toList)).getD []) = .ok c)
    (hw : findLoop (args.get "id".toList) c = .ok written) :
    Perform Faults.none args w
      = (none, { w.opened (args.get "fileName".toList) with out := w.out ++ written }) := by
  unfold Perform
  rw [hv]
  have hl : ¬ (findById = list) := by decide
  have ha : ¬ (findById = add) := by decide
  simp only [OpenFile_noFault, hop, hl, ha, if_false, if_true]
  obtain ⟨h1, h2⟩ := readUsers_noFault (args.get "fileName".toList)
    (w.opened (args.get "fileName".toList))
  rw [World.opened_files, hc] at h1
  cases hr : readUsers Faults.none ⟨args.get "fileName".toList, 0⟩
    (w.opened (args.get "fileName".toList)) with
  | mk res f =>
    rw [hr] at h1
    simp only at h1
    subst h1
    simp only [hw, World.opened_out, Bool.not_false, if_true,
      show Fprintf [] = [] from rfl, List.append_nil]

theorem Perform_remove_found (args : Arguments) (w : World) (hv : validateArgs args = none)
    (hop : args.get "operation".toList = remove) (c : List User) (i : Nat)
    (hc : storedUsers ((w.files (args.get "fileName".toList)).getD []) = .ok c)
    (hi : findIndex (args.get "id".toList) c = some i) :
    Perform Faults.none args w
      = (none, w.setContent ⟨args.get "fileName".toList, 0⟩
          (marshalUsers (c.take i ++ c.drop (i + 1)))) := by
  unfold Perform
  rw [hv]
  have hl : ¬ (remove = list) := by decide
  have ha : ¬ (remove = add) := by decide
  have hf : ¬ (remove = findById) := by decide
  simp only [OpenFile_noFault, hop, hl, ha, hf, if_false, if_true]
  obtain ⟨h1, h2⟩ := readUsers_noFault (args.get "fileName".toList)
    (w.opened (args.get "fileName".toList))
  rw [World.opened_files, hc] at h1
  cases hr : readUsers Faults.none ⟨args.get "fileName".toList, 0⟩
    (w.opened (args.get "fileName".toList)) with
  | mk res f =>
    rw [hr] at h1 h2
    simp only at h1 h2
    subst h1
    rcases f with ⟨fname, fpos⟩
    simp only at h2
    subst h2
    simp only [hi, saveUsers_noFault, World.opened_setContent]

theorem Perform_remove_missing (args : Arguments) (w : World) (hv : validateArgs args = none)
    (hop : args.get "operation".toList = remove) (c : List User)
    (hc : storedUsers ((w.files (args.get "fileName".toList)).getD []) = .ok c)
    (hi : findIndex (args.get "id".toList) c = none) :
    Perform Faults.none args w
      = (none, { w.opened (args.get "fileName".toList) with
          out := w.out ++ FprintfNotFound (args.get "id".toList) }) := by
  unfold Perform
  rw [hv]
  have hl : ¬ (remove = list) := by decide
  have ha : ¬ (remove = add) := by decide
  have hf : ¬ (remove = findById) := by decide
  simp only [OpenFile_noFault, hop, hl, ha, hf, if_false, if_true]
  obtain ⟨h1, h2⟩ := readUsers_noFault (args.get "fileName".toList)
    (w.opened (args.get "fileName".toList))
  rw [World.opened_files, hc] at h1
  cases hr : readUsers Faults.none ⟨args.get "fileName".toList, 0⟩
    (w.opened (args.get "fileName".toList)) with
  | mk res f =>
    rw [hr] at h1
    simp only at h1
    subst h1
    simp only [hi, World.opened_out]

theorem Fprintf_of_no_percent (s : Text) (h : '%' ∉ s) : Fprintf s = s := by
  have h1 : s.dropWhile (fun c => decide (c ≠ '%')) = [] := by
    rw [List.dropWhile_eq_nil_iff]
    intro x hx
    have : x ≠ '%' := by rintro rfl; exact h hx
    simpa using this
  have h2 : s.takeWhile (fun c => decide (c ≠ '%')) = s := by
    rw [List.takeWhile_eq_self_iff]
    intro x hx
    have : x ≠ '%' := by rintro rfl; exact h hx
    simpa using this
  simp only [Fprintf, doPrintf, h1, h2]

theorem findLoop_none (id : Text) (c : List User) (h : ∀ u ∈ c, u.ID ≠ id) :
    findLoop id c = .ok [] := by
  induction c with
  | nil => rfl
  | cons u us ih =>
    have hu := h u (List.mem_cons_self _ _)
    rw [findLoop, if_neg hu]
    exact ih fun x hx => h x (List.mem_cons_of_mem _ hx)

theorem findLoop_first (id : Text) (pre : List User) (u : User) (post : List User)
    (hpre : ∀ x ∈ pre, x.ID ≠ id) (hu : u.ID = id) :
    findLoop id (pre ++ u :: post) = .ok (Fprintf (marshalUser u)) := by
  induction pre with
  | nil => simp only [List.nil_append, findLoop, hu, if_true, jsonMarshalUser]
  | cons x xs ih =>
    have hx := hpre x (List.mem_cons_self _ _)
    rw [List.cons_append, findLoop, if_neg hx]
    exact ih fun y hy => hpre y (List.mem_cons_of_mem _ hy)

theorem findIndex_none (id : Text) (c : List User) (h : ∀ u ∈ c, u.ID ≠ id) :
    findIndex id c = none := by
  induction c with
  | nil => rfl
  | cons u us ih =>
    have hu := h u (List.mem_cons_self _ _)
    rw [findIndex, if_neg hu, ih fun x hx => h x (List.mem_cons_of_mem _ hx)]
    rfl

theorem findIndex_first (id : Text) (pre : List User) (u : User) (post : List User)
    (hpre : ∀ x ∈ pre, x.ID ≠ id) (hu : u.ID = id) :
    findIndex id (pre ++ u :: post) = some pre.length := by
  induction pre with
  | nil => simp only [List.nil_append, findIndex, hu, if_true, List.length_nil]
  | cons x xs ih =>
    have hx := hpre x (List.mem_cons_self _ _)
    rw [List.cons_append, findIndex, if_neg hx,
      ih fun y hy => hpre y (List.mem_cons_of_mem _ hy)]
    rfl

theorem take_drop_middle (pre : List User) (u : User) (post : List User) :
    (pre ++ u :: post).take pre.length ++ (pre ++ u :: post).drop (pre.length + 1)
      = pre ++ post := by
  simp

theorem exists_first (id : Text) (c : List User) (h : ∃ u ∈ c, u.ID = id) :
    ∃ pre u post, c = pre ++ u :: post ∧ (∀ x ∈ pre, x.ID ≠ id) ∧ u.ID = id := by
  induction c with
  | nil => obtain ⟨u, hu, -⟩ := h; cases hu
  | cons x xs ih =>
    by_cases hx : x.ID = id
    · exact ⟨[], x, xs, rfl, ⟨fun y hy => absurd hy (List.not_mem_nil y), hx⟩⟩
    · obtain ⟨u, hu, hid⟩ := h
      rcases List.mem_cons.mp hu with rfl | hmem
      · exact absurd hid hx
      · obtain ⟨pre, v, post, hc, hpre, hv⟩ := ih ⟨u, hmem, hid⟩
        refine ⟨x :: pre, v, post, by rw [hc]; rfl, ?_, hv⟩
        intro y hy
        rcases List.mem_cons.mp hy with rfl | hy
        · exact hx
        · exact hpre y hy

theorem storedUsers_of (data : Text) (c : List User)
    (hc : data = [] ∧ c = [] ∨ data ≠ [] ∧ jsonDecodeUsers data = .ok c) :
    storedUsers data = .ok c := by
  rcases hc with ⟨h1, h2⟩ | ⟨h1, h2⟩
  · subst h1 h2; rfl
  · simp only [storedUsers, h1, if_false, h2]

theorem storedUsers_inRange (data : Text) (c : List User) (h : storedUsers data = .ok c) :
    ∀ u ∈ c, u.inRange := by
  unfold storedUsers at h
  split_ifs at h
  · cases h; intro u hu; cases hu
  · exact jsonDecodeUsers_inRange data c h

theorem storedUsers_marshalUsers (us : List User) (h : ∀ u ∈ us, u.inRange) :
    storedUsers (marshalUsers us) = .ok us := by
  have := jsonDecodeUsers_marshalUsers us h []
  rw [List.append_nil] at this
  simp only [storedUsers, marshalUsers_ne_nil, if_false, this]

theorem files_setContent (w : World) (name d : Text) (pos : Nat) :
    (w.setContent ⟨name, pos⟩ d).files name = some d := by
  simp [World.setContent]

theorem files_setContent_ne (w : World) (name d n : Text) (pos : Nat) (h : n ≠ name) :
    (w.setContent ⟨name, pos⟩ d).files n = w.files n := by
  simp [World.setContent, h]

theorem isUserArray_marshalUsers (us : List User) (h : ∀ u ∈ us, u.inRange) :
    isUserArray (marshalUsers us) = true := by
  have hp := parseJSON_marshalUsers us []
  rw [List.append_nil] at hp
  simp only [isUserArray, hp, skipSpace, decodeElems_toJValue us h, Option.isSome_some,
    decide_True, Bool.and_self]

theorem findLoop_ok (id : Text) (c : List User) : ∃ written, findLoop id c = .ok written := by
  induction c with
  | nil => exact ⟨[], rfl⟩
  | cons u us ih =>
    rw [findLoop]
    split_ifs
    · exact ⟨_, rfl⟩
    · exact ih

theorem take_drop_inRange (c : List User) (i : Nat) (h : ∀ u ∈ c, u.inRange) :
    ∀ u ∈ c.take i ++ c.drop (i + 1), u.inRange := by
  intro u hu
  rcases List.mem_append.mp hu with hu | hu
  · exact h u (List.mem_of_mem_take hu)
  · exact h u (List.mem_of_mem_drop hu)

/-! ## `Perform` when system calls may fail -/

theorem OpenFile_eq (fl : Faults) (name : Text) (w : World) :
    OpenFile fl name w = if fl.openFile then (.error (.path "open".toList), w)
      else (.ok ⟨name, 0⟩, w.opened name) := by
  unfold OpenFile World.opened
  by_cases h : fl.openFile = true
  · simp only [h, if_true]
  · simp only [h, if_false]
    cases hf : w.files name <;> simp

theorem readUsers_ok (fl : Faults) (name : Text) (w : World) (c : List User) (f : File)
    (h : readUsers fl ⟨name, 0⟩ w = (.ok c, f)) :
    storedUsers ((w.files name).getD []) = .ok c ∧ f.name = name := by
  unfold readUsers statSize at h
  split_ifs at h with hs
  · cases h
  · simp only [World.content] at h
    by_cases hd : (w.files name).getD [] = []
    · have hl : ¬ ((w.files name).getD []).length > 0 := by simp [hd]
      simp only [hl, if_false] at h
      cases h
      simp [storedUsers, hd]
    · have hl : ((w.files name).getD []).length > 0 := List.length_pos.mpr hd
      simp only [hl, if_true, Decode, World.content, List.drop_zero] at h
      split_ifs at h with hr
      · cases h
      · cases hj : jsonDecodeUsers ((w.files name).getD []) with
        | error e => rw [hj] at h; cases h
        | ok us =>
          rw [hj] at h
          cases h
          simp [storedUsers, hd, hj]

theorem saveUsers_eq (fl : Faults) (htr : fl.truncate = false) (hsk : fl.seek = false)
    (hwr : fl.write = none) (file : File) (users : List User) (w : World) :
    saveUsers fl file users w = (none, ⟨file.name, (marshalUsers users).length⟩,
        w.setContent file (marshalUsers users)) := by
  simp [saveUsers, Truncate, Seek, htr, hsk, jsonMarshalUsers, Write, hwr,
    World.content_setContent, World.setContent_setContent, marshalUsers_ne_nil,
    writeAt_nil_zero]

/-- What a successful `Perform` leaves in the backing file when the truncation, the seek and
the write of `saveUsers` do not fail: the content of before, or the encoding of a
collection. -/
theorem Perform_content (fl : Faults) (htr : fl.truncate = false) (hsk : fl.seek = false)
    (hwr : fl.write = none) (args : Arguments) (w : World)
    (hok : (Perform fl args w).1 = none) :
    ((Perform fl args w).2.files (args.get "fileName".toList)).getD []
        = (w.files (args.get "fileName".toList)).getD [] ∨
    ∃ us, (∀ u ∈ us, u.inRange) ∧
      ((Perform fl args w).2.files (args.get "fileName".toList)).getD [] = marshalUsers us := by
  cases hv : validateArgs args with
  | some e =>
    unfold Perform at hok
    rw [hv] at hok
    cases hok
  | none =>
    unfold Perform at hok ⊢
    rw [hv] at hok ⊢
    simp only [OpenFile_eq] at hok ⊢
    cases ho : fl.openFile with
    | true => simp only [ho, if_true] at hok; cases hok
    | false =>
      simp only [ho, Bool.false_eq_true, if_false] at hok ⊢
      have hop := validateArgs_none_operation args hv
      simp only [allowedOperations, List.mem_cons, List.mem_singleton, List.not_mem_nil,
        or_false] at hop
      have hl : ¬ (add = list) := by decide
      have hfl : ¬ (findById = list) := by decide
      have hfa : ¬ (findById = add) := by decide
      have hrl : ¬ (remove = list) := by decide
      have hra : ¬ (remove = add) := by decide
      have hrf : ¬ (remove = findById) := by decide
      rcases hop with hop | hop | hop | hop
      · -- add
        simp only [hop, hl, if_false, if_true] at hok ⊢
        cases hitem : strToUser (args.get "item".toList) with
        | error e => simp only [hitem] at hok; cases hok
        | ok r =>
          simp only [hitem] at hok ⊢
          cases hr : readUsers fl ⟨args.get "fileName".toList, 0⟩
            (w.opened (args.get "fileName".toList)) with
          | mk res f =>
            cases res with
            | error e => simp only [hr] at hok; cases hok
            | ok users =>
              obtain ⟨hst, hname⟩ := readUsers_ok fl _ _ users f hr
              simp only [hr, saveUsers_eq fl htr hsk hwr] at hok ⊢
              right
              refine ⟨users ++ [r], ?_, ?_⟩
              · intro u hu
                rcases List.mem_append.mp hu with hu | hu
                · exact storedUsers_inRange _ users hst u hu
                · rw [List.mem_singleton.mp hu]; exact strToUser_inRange _ r hitem
              · rcases f with ⟨fname, fpos⟩
                simp only at hname
                subst hname
                simp [World.setContent]
      · -- list
        simp only [hop, if_true] at hok ⊢
        cases hr : ReadAll fl ⟨args.get "fileName".toList, 0⟩
          (w.opened (args.get "fileName".toList)) with
        | mk res f =>
          cases res with
          | error e => simp only [hr] at hok; cases hok
          | ok d =>
            left
            simp only [World.opened_files]
      · -- findById
        simp only [hop, hfl, hfa, if_false, if_true] at hok ⊢
        cases hr : readUsers fl ⟨args.get "fileName".toList, 0⟩
          (w.opened (args.get "fileName".toList)) with
        | mk res f =>
          cases res with
          | error e => simp only [hr] at hok; cases hok
          | ok users =>
            obtain ⟨written, hfound⟩ := findLoop_ok (args.get "id".toList) users
            left
            simp only [hfound, Bool.not_false, if_true, World.opened_files]
      · -- remove
        simp only [hop, hrl, hra, hrf, if_false, if_true] at hok ⊢
        cases hr : readUsers fl ⟨args.get "fileName".toList, 0⟩
          (w.opened (args.get "fileName".toList)) with
        | mk res f =>
          cases res with
          | error e => simp only [hr] at hok; cases hok
          | ok users =>
            obtain ⟨hst, hname⟩ := readUsers_ok fl _ _ users f hr
            rcases f with ⟨fname, fpos⟩
            simp only at hname
            subst hname
            cases hi : findIndex (args.get "id".toList) users with
            | none =>
              left
              simp only [hr, hi, World.opened_files]
            | some i =>
              simp only [hr, hi, saveUsers_eq fl htr hsk hwr]
              right
              refine ⟨users.take i ++ users.drop (i + 1),
                take_drop_inRange users i (storedUsers_inRange _ users hst), ?_⟩
              simp [World.setContent]

/-- The result of `saveUsers` is the result of its write alone: the results of the truncation
and of the seek do not count. -/
theorem saveUsers_result (fl : Faults) (file : File) (users : List User) (w : World) :
    (saveUsers fl file users w).1
      = if fl.write.isSome then some (.path "write".toList) else none := by
  simp only [saveUsers, jsonMarshalUsers, Write]
  cases fl.write <;> rfl

/-! ## A `%` in the encoding of a record -/

theorem hexDigit_ne_percent : ∀ n, n < 16 → hexDigit n ≠ '%' := by decide

theorem percent_mem_escapeChar (c : Char) (h : '%' ∈ escapeChar c) : c = '%' := by
  unfold escapeChar at h
  have h1 := hexDigit_ne_percent (c.toNat % 16) (Nat.mod_lt _ (by decide))
  split_ifs at h with ha hb hc hd he hf hg hh hi
  · exact (List.mem_singleton.mp h).symm
  · rcases hc with rfl | rfl <;> revert h <;> decide
  · exact absurd h (by decide)
  · exact absurd h (by decide)
  · exact absurd h (by decide)
  · exact absurd h (by decide)
  · exact absurd h (by decide)
  · have h2 := hexDigit_ne_percent (c.toNat / 16) (by omega)
    simp only [List.mem_cons, List.mem_singleton, List.not_mem_nil, or_false] at h
    rcases h with h | h | h | h | h | h
    · exact absurd h (by decide)
    · exact absurd h (by decide)
    · exact absurd h (by decide)
    · exact absurd h (by decide)
    · exact absurd h.symm h2
    · exact absurd h.symm h1
  · simp only [List.mem_cons, List.mem_singleton, List.not_mem_nil, or_false] at h
    rcases h with h | h | h | h | h | h
    · exact absurd h (by decide)
    · exact absurd h (by decide)
    · exact absurd h (by decide)
    · exact absurd h (by decide)
    · exact absurd h (by decide)
    · exact absurd h.symm h1
  · exact (List.mem_singleton.mp h).symm

theorem percent_not_mem_escapeText (s : Text) (h : '%' ∉ s) : '%' ∉ escapeText s := by
  induction s with
  | nil => simp [escapeText]
  | cons c cs ih =>
    intro hm
    rw [escapeText, List.mem_append] at hm
    rcases hm with hm | hm
    · exact h (by rw [percent_mem_escapeChar c hm]; exact List.mem_cons_self _ _)
    · exact ih (fun hc => h (List.mem_cons_of_mem _ hc)) hm

theorem percent_not_mem_appendString (s : Text) (h : '%' ∉ s) : '%' ∉ appendString s := by
  intro hm
  rw [appendString, List.cons_append, List.mem_cons, List.mem_append,
    List.mem_singleton] at hm
  rcases hm with hm | hm | hm
  · exact absurd hm (by decide)
  · exact percent_not_mem_escapeText s h hm
  · exact absurd hm (by decide)

theorem percent_not_mem_formatInt (i : Int) : '%' ∉ formatInt i := by
  intro hm
  have hall := natDigits_all (i.natAbs + 1) i.natAbs
  unfold formatInt at hm
  split_ifs at hm
  · rcases List.mem_cons.mp hm with hm | hm
    · exact absurd hm (by decide)
    · exact absurd (hall _ hm) (by decide)
  · exact absurd (hall _ hm) (by decide)

theorem percent_not_mem_encodeMember (m : Text × FieldVal) (hk : '%' ∉ m.1)
    (hv : ∀ s, m.2 = .string s → '%' ∉ s) : '%' ∉ encodeMember m := by
  intro hm
  simp only [encodeMember, List.mem_append, List.mem_cons] at hm
  rcases hm with hm | hm | hm
  · exact percent_not_mem_appendString _ hk hm
  · exact absurd hm (by decide)
  · rcases m with ⟨k, v⟩
    cases v with
    | string s => exact percent_not_mem_appendString s (hv s rfl) hm
    | int i => exact percent_not_mem_formatInt i hm

theorem percent_not_mem_joinComma (ts : List Text) (h : ∀ t ∈ ts, '%' ∉ t) :
    '%' ∉ joinComma ts := by
  induction ts with
  | nil => simp [joinComma]
  | cons t ts ih =>
    cases ts with
    | nil => simpa [joinComma] using h t (List.mem_cons_self _ _)
    | cons t2 ts2 =>
      intro hm
      change '%' ∈ t ++ ',' :: joinComma (t2 :: ts2) at hm
      rw [List.mem_append, List.mem_cons] at hm
      rcases hm with hm | hm | hm
      · exact h t (List.mem_cons_self _ _) hm
      · exact absurd hm (by decide)
      · exact ih (fun x hx => h x (List.mem_cons_of_mem _ hx)) hm

/-- The encoding of a record has a `%` only if its id or its email has one. -/
theorem percent_not_mem_marshalUser (u : User) (hid : '%' ∉ u.ID) (hem : '%' ∉ u.Email) :
    '%' ∉ marshalUser u := by
  intro hm
  rw [marshalUser_eq, List.cons_append, List.mem_cons, List.mem_append,
    List.mem_singleton] at hm
  rcases hm with hm | hm | hm
  · exact absurd hm (by decide)
  · refine percent_not_mem_joinComma _ ?_ hm
    intro t ht
    obtain ⟨m, hmem, rfl⟩ := List.mem_map.mp ht
    have hf : m ∈ u.fields := List.mem_of_mem_filter hmem
    simp only [User.fields, List.mem_cons, List.mem_singleton, List.not_mem_nil,
      or_false] at hf
    rcases hf with rfl | rfl | rfl
    · exact percent_not_mem_encodeMember _ (show '%' ∉ "id".toList by decide)
        (fun s hs => by cases hs; exact hid)
    · exact percent_not_mem_encodeMember _ (show '%' ∉ "email".toList by decide)
        (fun s hs => by cases hs; exact hem)
    · exact percent_not_mem_encodeMember _ (show '%' ∉ "age".toList by decide)
        (fun s hs => by cases hs)
  · exact absurd hm (by decide)

/-! ## The operations -/

/-- C3 (amended): on a backing file that is empty (or absent) or decodes to a collection
`c`, with an item that decodes to a record `r`, and when no system call fails, `Perform`
with operation `add` returns `nil`, writes nothing to the writer, and leaves in the file the
JSON encoding of `c` with `r` appended (no other file is touched); on an empty file this is
the encoding of `[r]`. The content left decodes to `c` with `r` appended. -/
theorem Perform_add_appends (args : Arguments) (w : World) (data : Text) (c : List User)
    (r : User)
    (hname : args.get "fileName".toList ≠ [])
    (hop : args.get "operation".toList = "add".toList)
    (hitem : strToUser (args.get "item".toList) = .ok r)
    (hdata : (w.files (args.get "fileName".toList)).getD [] = data)
    (hc : data = [] ∧ c = [] ∨ data ≠ [] ∧ jsonDecodeUsers data = .ok c) :
    (Perform Faults.none args w).1 = none ∧
    (Perform Faults.none args w).2.out = w.out ∧
    (Perform Faults.none args w).2.files (args.get "fileName".toList)
      = some (marshalUsers (c ++ [r])) ∧
    (∀ n, n ≠ args.get "fileName".toList → (Perform Faults.none args w).2.files n = w.files n) ∧
    (data = [] → (Perform Faults.none args w).2.files (args.get "fileName".toList)
      = some (marshalUsers [r])) ∧
    jsonDecodeUsers (marshalUsers (c ++ [r])) = .ok (c ++ [r]) := by
  have hne : args.get "item".toList ≠ [] := by
    intro h
    rw [h, strToUser_nil] at hitem
    cases hitem
  have hv : validateArgs args = none :=
    validateArgs_ok args hname (by rw [hop]; decide) (fun _ => hne)
      (by rw [hop]; intro h; rcases h with h | h <;> exact absurd h (by decide))
  have hst := storedUsers_of data c hc
  rw [← hdata] at hst
  have hback : jsonDecodeUsers (marshalUsers (c ++ [r])) = .ok (c ++ [r]) := by
    have h := jsonDecodeUsers_marshalUsers (c ++ [r]) (fun u hu => by
      rcases List.mem_append.mp hu with hu | hu
      · exact storedUsers_inRange _ c hst u hu
      · rw [List.mem_singleton.mp hu]; exact strToUser_inRange _ r hitem) []
    rwa [List.append_nil] at h
  rw [Perform_add args w hv hop r c hitem hst]
  refine ⟨rfl, rfl, files_setContent _ _ _ _, fun n hn => files_setContent_ne _ _ _ _ _ hn,
    ?_, hback⟩
  intro hd
  rcases hc with ⟨-, h2⟩ | ⟨h1, -⟩
  · subst h2; exact files_setContent _ _ _ _
  · exact absurd hd h1

/-- The example of the specification: `add` on a missing `db.json`. -/
theorem Perform_add_appends_witness :
    (Perform Faults.none
        [("operation".toList, "add".toList), ("fileName".toList, "db.json".toList),
          ("item".toList, "\x7b\"id\":\"1\",\"email\":\"a@b.com\",\"age\":30\x7d".toList)]
        ⟨fun _ => none, []⟩).2.files "db.json".toList
      = some "[\x7b\"id\":\"1\",\"email\":\"a@b.com\",\"age\":30\x7d]".toList :=
  (Perform_add_appends
    [("operation".toList, "add".toList), ("fileName".toList, "db.json".toList),
      ("item".toList, "\x7b\"id\":\"1\",\"email\":\"a@b.com\",\"age\":30\x7d".toList)]
    ⟨fun _ => none, []⟩ [] [] ⟨"1".toList, "a@b.com".toList, 30⟩
    (by decide) (by decide) (by decide) (by decide) (Or.inl ⟨rfl, rfl⟩)).2.2.1

/-- C7: on a file that holds a decodable collection in which no record has the requested
(non-empty) id, and with no failing system call, `Perform` with operation `remove` returns
`nil`, leaves every file as it was, and writes exactly `Item with id <id> not found` to the
writer. -/
theorem Perform_remove_missing_id (args : Arguments) (w : World) (data : Text)
    (c : List User)
    (hname : args.get "fileName".toList ≠ [])
    (hop : args.get "operation".toList = "remove".toList)
    (hid : args.get "id".toList ≠ [])
    (hfile : w.files (args.get "fileName".toList) = some data)
    (hc : data = [] ∧ c = [] ∨ data ≠ [] ∧ jsonDecodeUsers data = .ok c)
    (hmiss : ∀ u ∈ c, u.ID ≠ args.get "id".toList) :
    (Perform Faults.none args w).1 = none ∧
    (Perform Faults.none args w).2.files = w.files ∧
    (Perform Faults.none args w).2.files (args.get "fileName".toList) = some data ∧
    (Perform Faults.none args w).2.out
      = w.out ++ ("Item with id ".toList ++ args.get "id".toList ++ " not found".toList) := by
  have hv : validateArgs args = none :=
    validateArgs_ok args hname (by rw [hop]; decide)
      (by rw [hop]; intro h; exact absurd h (by decide)) (fun _ => hid)
  have hst := storedUsers_of data c hc
  have hd : (w.files (args.get "fileName".toList)).getD [] = data := by rw [hfile]; rfl
  rw [← hd] at hst
  rw [Perform_remove_missing args w hv hop c hst (findIndex_none _ c hmiss),
    World.opened_of_some w _ data hfile]
  exact ⟨rfl, rfl, hfile, rfl⟩

/-- The example of the specification: `remove` of an id that is not stored. -/
theorem Perform_remove_missing_id_witness :
    (Perform Faults.none
        [("operation".toList, "remove".toList), ("fileName".toList, "db.json".toList),
          ("id".toList, "2".toList)]
        ⟨fun n => if n = "db.json".toList then
            some "[\x7b\"id\":\"1\",\"email\":\"a@b.com\",\"age\":30\x7d]".toList else none,
          []⟩).2.out
      = "Item with id 2 not found".toList :=
  (Perform_remove_missing_id
    [("operation".toList, "remove".toList), ("fileName".toList, "db.json".toList),
      ("id".toList, "2".toList)]
    ⟨fun n => if n = "db.json".toList then
        some "[\x7b\"id\":\"1\",\"email\":\"a@b.com\",\"age\":30\x7d]".toList else none, []⟩
    "[\x7b\"id\":\"1\",\"email\":\"a@b.com\",\"age\":30\x7d]".toList
    [⟨"1".toList, "a@b.com".toList, 30⟩]
    (by decide) (by decide) (by decide) (by decide) (Or.inr ⟨by decide, by decide⟩)
    (by decide)).2.2.2

/-- C8 (amended): on a file that decodes to a collection `c` in which some record has the
requested (non-empty) id, and when no system call fails, `Perform` with operation `remove`
returns `nil`, writes nothing to the writer, and leaves in the file the JSON encoding of
`c` without the first record that has the id: `c` is `pre ++ u :: post` with no record of
`pre` having the id and `u` having it, and the file holds the encoding of `pre ++ post`,
one record shorter, which decodes to `pre ++ post`. -/
theorem Perform_remove_first (args : Arguments) (w : World) (data : Text) (c : List User)
    (hname : args.get "fileName".toList ≠ [])
    (hop : args.get "operation".toList = "remove".toList)
    (hid : args.get "id".toList ≠ [])
    (hdata : (w.files (args.get "fileName".toList)).getD [] = data)
    (hc : jsonDecodeUsers data = .ok c)
    (hex : ∃ u ∈ c, u.ID = args.get "id".toList) :
    ∃ pre u post, c = pre ++ u :: post ∧ (∀ x ∈ pre, x.ID ≠ args.get "id".toList) ∧
      u.ID = args.get "id".toList ∧ (pre ++ post).length + 1 = c.length ∧
      (Perform Faults.none args w).1 = none ∧
      (Perform Faults.none args w).2.out = w.out ∧
      (Perform Faults.none args w).2.files (args.get "fileName".toList)
        = some (marshalUsers (pre ++ post)) ∧
      (∀ n, n ≠ args.get "fileName".toList →
        (Perform Faults.none args w).2.files n = w.files n) ∧
      jsonDecodeUsers (marshalUsers (pre ++ post)) = .ok (pre ++ post) := by
  have hv : validateArgs args = none :=
    validateArgs_ok args hname (by rw [hop]; decide)
      (by rw [hop]; intro h; exact absurd h (by decide)) (fun _ => hid)
  have hne : data ≠ [] := by
    rintro rfl
    have hnil : jsonDecodeUsers [] = .error .json := by decide
    rw [hnil] at hc
    cases hc
  have hst := storedUsers_of data c (Or.inr ⟨hne, hc⟩)
  rw [← hdata] at hst
  obtain ⟨pre, u, post, hsplit, hpre, hu⟩ := exists_first _ c hex
  have hi := findIndex_first _ pre u post hpre hu
  rw [← hsplit] at hi
  have hin := storedUsers_inRange _ c hst
  have hback : jsonDecodeUsers (marshalUsers (pre ++ post)) = .ok (pre ++ post) := by
    have h := jsonDecodeUsers_marshalUsers (pre ++ post) (fun x hx => by
      rw [hsplit] at hin
      rcases List.mem_append.mp hx with hx | hx
      · exact hin x (List.mem_append_left _ hx)
      · exact hin x (List.mem_append_right _ (List.mem_cons_of_mem _ hx))) []
    rwa [List.append_nil] at h
  rw [Perform_remove_found args w hv hop c pre.length hst hi, hsplit, take_drop_middle]
  refine ⟨pre, u, post, rfl, hpre, hu, by simp; omega, rfl, rfl, files_setContent _ _ _ _,
    fun n hn => files_setContent_ne _ _ _ _ _ hn, hback⟩

/-- An instance of `Perform_remove_first`: the id `1` is stored twice, and the file is left
with the second and the third record. -/
theorem Perform_remove_first_witness :
    (Perform Faults.none (parseArgs "remove".toList "db.json".toList [] "1".toList)
        (World.single "db.json".toList
          "[\x7b\"id\":\"1\",\"email\":\"a\"\x7d,\x7b\"id\":\"2\"\x7d,\x7b\"id\":\"1\",\"email\":\"b\"\x7d]".toList)).2.files
        "db.json".toList = some "[\x7b\"id\":\"2\"\x7d,\x7b\"id\":\"1\",\"email\":\"b\"\x7d]".toList ∧
    ∃ pre u post,
      [(⟨"1".toList, "a".toList, 0⟩ : User), ⟨"2".toList, [], 0⟩, ⟨"1".toList, "b".toList, 0⟩]
        = pre ++ u :: post ∧
      (∀ x ∈ pre, x.ID ≠ "1".toList) ∧ u.ID = "1".toList ∧ (pre ++ post).length + 1 = 3 ∧
      (Perform Faults.none (parseArgs "remove".toList "db.json".toList [] "1".toList)
        (World.single "db.json".toList
          "[\x7b\"id\":\"1\",\"email\":\"a\"\x7d,\x7b\"id\":\"2\"\x7d,\x7b\"id\":\"1\",\"email\":\"b\"\x7d]".toList)).2.files
        "db.json".toList = some (marshalUsers (pre ++ post)) ∧
      jsonDecodeUsers (marshalUsers (pre ++ post)) = .ok (pre ++ post) := by
  refine ⟨by decide, ?_⟩
  obtain ⟨pre, u, post, h1, h2, h3, h4, -, -, h7, -, h9⟩ := Perform_remove_first
    (parseArgs "remove".toList "db.json".toList [] "1".toList)
    (World.single "db.json".toList
      "[\x7b\"id\":\"1\",\"email\":\"a\"\x7d,\x7b\"id\":\"2\"\x7d,\x7b\"id\":\"1\",\"email\":\"b\"\x7d]".toList)
    "[\x7b\"id\":\"1\",\"email\":\"a\"\x7d,\x7b\"id\":\"2\"\x7d,\x7b\"id\":\"1\",\"email\":\"b\"\x7d]".toList
    [⟨"1".toList, "a".toList, 0⟩, ⟨"2".toList, [], 0⟩, ⟨"1".toList, "b".toList, 0⟩]
    (by decide) (by decide) (by decide) (by decide) (by decide)
    ⟨⟨"1".toList, "a".toList, 0⟩, by decide, by decide⟩
  exact ⟨pre, u, post, h1, h2, h3, h4, h7, h9⟩

/-- C4 (amended): when no stored record has the id of `r`, neither the id nor the email of
`r` has a `%`, and no system call fails, `add` of `r` followed by `findById` with the id of `r` on the same
file writes exactly the JSON encoding of `r`, which decodes to `r` field for field. -/
theorem Perform_add_then_findById (args1 args2 : Arguments) (w : World) (data : Text)
    (c : List User) (r : User)
    (hname : args1.get "fileName".toList ≠ [])
    (hop1 : args1.get "operation".toList = "add".toList)
    (hitem : strToUser (args1.get "item".toList) = .ok r)
    (hdata : (w.files (args1.get "fileName".toList)).getD [] = data)
    (hc : data = [] ∧ c = [] ∨ data ≠ [] ∧ jsonDecodeUsers data = .ok c)
    (hid : r.ID ≠ [])
    (hfresh : ∀ u ∈ c, u.ID ≠ r.ID)
    (hpid : '%' ∉ r.ID) (hpem : '%' ∉ r.Email)
    (hname2 : args2.get "fileName".toList = args1.get "fileName".toList)
    (hop2 : args2.get "operation".toList = "findById".toList)
    (hid2 : args2.get "id".toList = r.ID) :
    (Perform Faults.none args1 w).1 = none ∧
    (Perform Faults.none args2 (Perform Faults.none args1 w).2).1 = none ∧
    (Perform Faults.none args2 (Perform Faults.none args1 w).2).2.out
      = (Perform Faults.none args1 w).2.out ++ marshalUser r ∧
    strToUser (marshalUser r) = .ok r := by
  have hne : args1.get "item".toList ≠ [] := by
    intro h
    rw [h, strToUser_nil] at hitem
    cases hitem
  have hv1 : validateArgs args1 = none :=
    validateArgs_ok args1 hname (by rw [hop1]; decide) (fun _ => hne)
      (by rw [hop1]; intro h; rcases h with h | h <;> exact absurd h (by decide))
  have hv2 : validateArgs args2 = none :=
    validateArgs_ok args2 (by rw [hname2]; exact hname) (by rw [hop2]; decide)
      (by rw [hop2]; intro h; exact absurd h (by decide)) (fun _ => by rw [hid2]; exact hid)
  have hst := storedUsers_of data c hc
  rw [← hdata] at hst
  have hr := strToUser_inRange _ r hitem
  have hcr : ∀ u ∈ c ++ [r], u.inRange := by
    intro u hu
    rcases List.mem_append.mp hu with hu | hu
    · exact storedUsers_inRange _ c hst u hu
    · rw [List.mem_singleton.mp hu]; exact hr
  rw [Perform_add args1 w hv1 hop1 r c hitem hst]
  have hst2 : storedUsers (((w.setContent ⟨args1.get "fileName".toList, 0⟩
      (marshalUsers (c ++ [r]))).files (args2.get "fileName".toList)).getD []) = .ok (c ++ [r]) := by
    rw [hname2, files_setContent]
    exact storedUsers_marshalUsers _ hcr
  have hfind : findLoop (args2.get "id".toList) (c ++ [r]) = .ok (marshalUser r) := by
    rw [findLoop_first _ c r [] (by rw [hid2]; exact hfresh) hid2.symm,
      Fprintf_of_no_percent _ (percent_not_mem_marshalUser r hpid hpem)]
  rw [Perform_findById args2 _ hv2 hop2 (c ++ [r]) (marshalUser r) hst2 hfind]
  exact ⟨rfl, rfl, rfl, jsonUnmarshalUser_marshalUser r hr⟩

/-- The examples of the specification: `add` on a missing `db.json`, then `findById`. -/
theorem Perform_add_then_findById_witness :
    (Perform Faults.none (parseArgs "findById".toList "db.json".toList [] "1".toList)
        (Perform Faults.none
          (parseArgs "add".toList "db.json".toList
            "\x7b\"id\":\"1\",\"email\":\"a@b.com\",\"age\":30\x7d".toList [])
          ⟨fun _ => none, []⟩).2).2.out
      = "\x7b\"id\":\"1\",\"email\":\"a@b.com\",\"age\":30\x7d".toList :=
  (Perform_add_then_findById
    (parseArgs "add".toList "db.json".toList
      "\x7b\"id\":\"1\",\"email\":\"a@b.com\",\"age\":30\x7d".toList [])
    (parseArgs "findById".toList "db.json".toList [] "1".toList)
    ⟨fun _ => none, []⟩ [] [] ⟨"1".toList, "a@b.com".toList, 30⟩
    (by decide) (by decide) (by decide) (by decide) (Or.inl ⟨rfl, rfl⟩) (by decide)
    (by intro u hu; cases hu) (by decide) (by decide) (by decide) (by decide)
    (by decide)).2.2.1

/-- C5 (amended): when exactly one stored record has the (non-empty) id and no system call
fails, `remove` of the id followed by `findById` of the id on the same file writes nothing
in the `findById` call. -/
theorem Perform_remove_then_findById (args1 args2 : Arguments) (w : World) (data : Text)
    (pre post : List User) (u : User)
    (hname : args1.get "fileName".toList ≠ [])
    (hop1 : args1.get "operation".toList = "remove".toList)
    (hid : args1.get "id".toList ≠ [])
    (hdata : (w.files (args1.get "fileName".toList)).getD [] = data)
    (hc : jsonDecodeUsers data = .ok (pre ++ u :: post))
    (hu : u.ID = args1.get "id".toList)
    (hpre : ∀ x ∈ pre, x.ID ≠ args1.get "id".toList)
    (hpost : ∀ x ∈ post, x.ID ≠ args1.get "id".toList)
    (hname2 : args2.get "fileName".toList = args1.get "fileName".toList)
    (hop2 : args2.get "operation".toList = "findById".toList)
    (hid2 : args2.get "id".toList = args1.get "id".toList) :
    (Perform Faults.none args1 w).1 = none ∧
    (Perform Faults.none args2 (Perform Faults.none args1 w).2).1 = none ∧
    (Perform Faults.none args2 (Perform Faults.none args1 w).2).2.out
      = (Perform Faults.none args1 w).2.out := by
  have hv1 : validateArgs args1 = none :=
    validateArgs_ok args1 hname (by rw [hop1]; decide)
      (by rw [hop1]; intro h; exact absurd h (by decide)) (fun _ => hid)
  have hv2 : validateArgs args2 = none :=
    validateArgs_ok args2 (by rw [hname2]; exact hname) (by rw [hop2]; decide)
      (by rw [hop2]; intro h; exact absurd h (by decide)) (fun _ => by rw [hid2]; exact hid)
  have hne : data ≠ [] := by
    rintro rfl
    have hnil : jsonDecodeUsers [] = .error .json := by decide
    rw [hnil] at hc
    cases hc
  have hst := storedUsers_of data _ (Or.inr ⟨hne, hc⟩)
  rw [← hdata] at hst
  have hin := storedUsers_inRange _ _ hst
  have hi := findIndex_first _ pre u post hpre hu
  rw [Perform_remove_found args1 w hv1 hop1 _ pre.length hst hi, take_drop_middle]
  have hin2 : ∀ x ∈ pre ++ post, x.inRange := by
    intro x hx
    rcases List.mem_append.mp hx with hx | hx
    · exact hin x (List.mem_append_left _ hx)
    · exact hin x (List.mem_append_right _ (List.mem_cons_of_mem _ hx))
  have hst2 : storedUsers (((w.setContent ⟨args1.get "fileName".toList, 0⟩
      (marshalUsers (pre ++ post))).files (args2.get "fileName".toList)).getD [])
      = .ok (pre ++ post) := by
    rw [hname2, files_setContent]
    exact storedUsers_marshalUsers _ hin2
  have hfind : findLoop (args2.get "id".toList) (pre ++ post) = .ok [] := by
    apply findLoop_none
    intro x hx
    rw [hid2]
    rcases List.mem_append.mp hx with hx | hx
    · exact hpre x hx
    · exact hpost x hx
  rw [Perform_findById args2 _ hv2 hop2 (pre ++ post) [] hst2 hfind]
  exact ⟨rfl, rfl, List.append_nil _⟩

/-- An instance of `Perform_remove_then_findById`: two records, the id `1` stored once. -/
theorem Perform_remove_then_findById_witness :
    (Perform Faults.none (parseArgs "findById".toList "db.json".toList [] "1".toList)
        (Perform Faults.none (parseArgs "remove".toList "db.json".toList [] "1".toList)
          (World.single "db.json".toList
            "[\x7b\"id\":\"2\"\x7d,\x7b\"id\":\"1\",\"email\":\"a@b.com\"\x7d]".toList)).2).2.out
      = (Perform Faults.none (parseArgs "remove".toList "db.json".toList [] "1".toList)
          (World.single "db.json".toList
            "[\x7b\"id\":\"2\"\x7d,\x7b\"id\":\"1\",\"email\":\"a@b.com\"\x7d]".toList)).2.out :=
  (Perform_remove_then_findById
    (parseArgs "remove".toList "db.json".toList [] "1".toList)
    (parseArgs "findById".toList "db.json".toList [] "1".toList)
    (World.single "db.json".toList "[\x7b\"id\":\"2\"\x7d,\x7b\"id\":\"1\",\"email\":\"a@b.com\"\x7d]".toList)
    "[\x7b\"id\":\"2\"\x7d,\x7b\"id\":\"1\",\"email\":\"a@b.com\"\x7d]".toList
    [⟨"2".toList, [], 0⟩] [] ⟨"1".toList, "a@b.com".toList, 0⟩
    (by decide) (by decide) (by decide) (by decide) (by decide) (by decide) (by decide)
    (by intro x hx; cases hx) (by decide) (by decide) (by decide)).2.2

/-- What `findById` writes when the first record with the id has no `%` in its id and
email: exactly the encoding of that record; the files stay as they are. -/
theorem Perform_findById_first (args : Arguments) (w : World) (data : Text)
    (pre post : List User) (u : User)
    (hname : args.get "fileName".toList ≠ [])
    (hop : args.get "operation".toList = "findById".toList)
    (hid : args.get "id".toList ≠ [])
    (hfile : w.files (args.get "fileName".toList) = some data)
    (hc : jsonDecodeUsers data = .ok (pre ++ u :: post))
    (hpre : ∀ x ∈ pre, x.ID ≠ args.get "id".toList)
    (hu : u.ID = args.get "id".toList)
    (hpid : '%' ∉ u.ID) (hpem : '%' ∉ u.Email) :
    Perform Faults.none args w = (none, { w with out := w.out ++ marshalUser u }) := by
  have hv : validateArgs args = none :=
    validateArgs_ok args hname (by rw [hop]; decide)
      (by rw [hop]; intro h; exact absurd h (by decide)) (fun _ => hid)
  have hne : data ≠ [] := by
    rintro rfl
    have hnil : jsonDecodeUsers [] = .error .json := by decide
    rw [hnil] at hc
    cases hc
  have hst := storedUsers_of data _ (Or.inr ⟨hne, hc⟩)
  have hd : (w.files (args.get "fileName".toList)).getD [] = data := by rw [hfile]; rfl
  rw [← hd] at hst
  have hfind : findLoop (args.get "id".toList) (pre ++ u :: post) = .ok (marshalUser u) := by
    rw [findLoop_first _ pre u post hpre hu,
      Fprintf_of_no_percent _ (percent_not_mem_marshalUser u hpid hpem)]
  rw [Perform_findById args w hv hop _ _ hst hfind, World.opened_of_some w _ data hfile]

/-- C6 (failing input): the stored record has a `%` in its email; `findById` passes its
encoding to `fmt.Fprintf` as the format, so the writer receives `%!o(MISSING)` in place of
`%o`, not the encoding of the record. -/
theorem Perform_findById_percent :
    (Perform Faults.none (parseArgs "findById".toList "db.json".toList [] "1".toList)
        (World.single "db.json".toList "[\x7b\"id\":\"1\",\"email\":\"50%off@x.org\"\x7d]".toList)).2.out
      = "\x7b\"id\":\"1\",\"email\":\"50%!o(MISSING)ff@x.org\"\x7d".toList ∧
    marshalUser ⟨"1".toList, "50%off@x.org".toList, 0⟩
      = "\x7b\"id\":\"1\",\"email\":\"50%off@x.org\"\x7d".toList := by
  decide

/-- C10 (failing input): `add` on a file whose truncation fails (`/dev/null`, a character
device): `saveUsers` drops the error of `file.Truncate`, the write succeeds, and `Perform`
returns `nil`. -/
theorem Perform_add_truncate_fails :
    (Truncate { Faults.none with truncate := true } ⟨"/dev/null".toList, 0⟩
        (World.single "/dev/null".toList [])).1 = some (.path "truncate".toList) ∧
    (saveUsers { Faults.none with truncate := true } ⟨"/dev/null".toList, 0⟩
        [⟨"1".toList, [], 0⟩] (World.single "/dev/null".toList [])).1 = none ∧
    (Perform { Faults.none with truncate := true }
        (parseArgs "add".toList "/dev/null".toList "\x7b\"id\":\"1\"\x7d".toList [])
        (World.single "/dev/null".toList [])).1 = none := by
  decide

/-- C4 (counterexample): the stored collection already has a record with id `1`; after
`add` of another record with id `1`, `findById` writes the older record. -/
theorem add_findById_duplicate_id :
    strToUser "\x7b\"id\":\"1\",\"email\":\"new@b.com\"\x7d".toList
      = .ok ⟨"1".toList, "new@b.com".toList, 0⟩ ∧
    (Perform Faults.none
        (parseArgs "add".toList "db.json".toList
          "\x7b\"id\":\"1\",\"email\":\"new@b.com\"\x7d".toList [])
        (World.single "db.json".toList "[\x7b\"id\":\"1\",\"email\":\"old@b.com\"\x7d]".toList)).1
      = none ∧
    (Perform Faults.none (parseArgs "findById".toList "db.json".toList [] "1".toList)
        (Perform Faults.none
          (parseArgs "add".toList "db.json".toList
            "\x7b\"id\":\"1\",\"email\":\"new@b.com\"\x7d".toList [])
          (World.single "db.json".toList
            "[\x7b\"id\":\"1\",\"email\":\"old@b.com\"\x7d]".toList)).2).2.out
      = "\x7b\"id\":\"1\",\"email\":\"old@b.com\"\x7d".toList ∧
    strToUser "\x7b\"id\":\"1\",\"email\":\"old@b.com\"\x7d".toList
      = .ok ⟨"1".toList, "old@b.com".toList, 0⟩ ∧
    (⟨"1".toList, "old@b.com".toList, 0⟩ : User) ≠ ⟨"1".toList, "new@b.com".toList, 0⟩ := by
  refine ⟨by decide, by decide, by decide!, by decide, by decide⟩

/-- C5 (counterexample): the id `1` is stored twice; `remove` deletes the first of the two
records, and `findById` then writes the second. -/
theorem remove_findById_duplicate_id :
    (Perform Faults.none (parseArgs "remove".toList "db.json".toList [] "1".toList)
        (World.single "db.json".toList
          "[\x7b\"id\":\"1\",\"email\":\"a\"\x7d,\x7b\"id\":\"1\",\"email\":\"b\"\x7d]".toList)).1 = none ∧
    (Perform Faults.none (parseArgs "findById".toList "db.json".toList [] "1".toList)
        (Perform Faults.none (parseArgs "remove".toList "db.json".toList [] "1".toList)
          (World.single "db.json".toList
            "[\x7b\"id\":\"1\",\"email\":\"a\"\x7d,\x7b\"id\":\"1\",\"email\":\"b\"\x7d]".toList)).2).2.out
      = "\x7b\"id\":\"1\",\"email\":\"b\"\x7d".toList := by
  decide

/-- C9 (counterexample): `list` on a file whose content is not JSON returns `nil`, and the
file still holds that content. -/
theorem Perform_list_keeps_garbage :
    (Perform Faults.none (parseArgs "list".toList "db.json".toList [] [])
        (World.single "db.json".toList "not json".toList)).1 = none ∧
    (Perform Faults.none (parseArgs "list".toList "db.json".toList [] [])
        (World.single "db.json".toList "not json".toList)).2.files "db.json".toList
      = some "not json".toList ∧
    "not json".toList ≠ [] ∧ isUserArray "not json".toList = false := by
  decide

/-- C3 (counterexample): the file decodes and the item decodes, but the write of `saveUsers`
fails before any byte is written: `add` returns the error of the write, not `nil`, and the
file does not hold the encoding of the collection with the record appended. -/
theorem Perform_add_write_fails :
    jsonDecodeUsers "[\x7b\"id\":\"1\"\x7d]".toList = .ok [⟨"1".toList, [], 0⟩] ∧
    strToUser "\x7b\"id\":\"2\"\x7d".toList = .ok ⟨"2".toList, [], 0⟩ ∧
    (Perform { Faults.none with write := some 0 }
        (parseArgs "add".toList "db.json".toList "\x7b\"id\":\"2\"\x7d".toList [])
        (World.single "db.json".toList "[\x7b\"id\":\"1\"\x7d]".toList)).1
      = some (.path "write".toList) ∧
    (Perform { Faults.none with write := some 0 }
        (parseArgs "add".toList "db.json".toList "\x7b\"id\":\"2\"\x7d".toList [])
        (World.single "db.json".toList "[\x7b\"id\":\"1\"\x7d]".toList)).2.files "db.json".toList
      ≠ some (marshalUsers [⟨"1".toList, [], 0⟩, ⟨"2".toList, [], 0⟩]) := by
  decide

/-- C8 (counterexample): the file decodes and a record has the id, but the write of
`saveUsers` fails before any byte is written: `remove` drops the error and returns `nil`,
and the file, truncated, is left empty; the encoding of the remaining collection is not
empty. -/
theorem Perform_remove_write_fails :
    jsonDecodeUsers "[\x7b\"id\":\"1\"\x7d,\x7b\"id\":\"2\"\x7d]".toList
      = .ok [⟨"1".toList, [], 0⟩, ⟨"2".toList, [], 0⟩] ∧
    (Perform { Faults.none with write := some 0 }
        (parseArgs "remove".toList "db.json".toList [] "1".toList)
        (World.single "db.json".toList "[\x7b\"id\":\"1\"\x7d,\x7b\"id\":\"2\"\x7d]".toList)).1 = none ∧
    (Perform { Faults.none with write := some 0 }
        (parseArgs "remove".toList "db.json".toList [] "1".toList)
        (World.single "db.json".toList "[\x7b\"id\":\"1\"\x7d,\x7b\"id\":\"2\"\x7d]".toList)).2.files
        "db.json".toList = some [] ∧
    marshalUsers [⟨"2".toList, [], 0⟩] = "[\x7b\"id\":\"2\"\x7d]".toList := by
  decide

/-- C9 (amended): when the backing file is absent, empty or holds, as its entire content, a
JSON array of records, the truncation, the seek and the write of `saveUsers` do not fail
and `Perform` returns `nil`, then afterwards the file is empty or holds, as its entire
content, a JSON array of records. -/
theorem Perform_keeps_store_valid (fl : Faults) (htr : fl.truncate = false)
    (hsk : fl.seek = false) (hwr : fl.write = none) (args : Arguments) (w : World)
    (hinit : (w.files (args.get "fileName".toList)).getD [] = [] ∨
      isUserArray ((w.files (args.get "fileName".toList)).getD []) = true)
    (hok : (Perform fl args w).1 = none) :
    ((Perform fl args w).2.files (args.get "fileName".toList)).getD [] = [] ∨
      isUserArray (((Perform fl args w).2.files (args.get "fileName".toList)).getD [])
        = true := by
  rcases Perform_content fl htr hsk hwr args w hok with h | ⟨us, hus, h⟩
  · rw [h]; exact hinit
  · rw [h]; exact Or.inr (isUserArray_marshalUsers us hus)

/-- An instance of `Perform_keeps_store_valid`: `remove` of one of two records. -/
theorem Perform_keeps_store_valid_witness :
    ((Perform Faults.none (parseArgs "remove".toList "db.json".toList [] "1".toList)
        (World.single "db.json".toList "[\x7b\"id\":\"1\"\x7d,\x7b\"id\":\"2\"\x7d]".toList)).2.files
        ((parseArgs "remove".toList "db.json".toList [] "1".toList).get
          "fileName".toList)).getD [] = [] ∨
    isUserArray (((Perform Faults.none (parseArgs "remove".toList "db.json".toList [] "1".toList)
        (World.single "db.json".toList "[\x7b\"id\":\"1\"\x7d,\x7b\"id\":\"2\"\x7d]".toList)).2.files
        ((parseArgs "remove".toList "db.json".toList [] "1".toList).get
          "fileName".toList)).getD []) = true :=
  Perform_keeps_store_valid Faults.none rfl rfl rfl
    (parseArgs "remove".toList "db.json".toList [] "1".toList)
    (World.single "db.json".toList "[\x7b\"id\":\"1\"\x7d,\x7b\"id\":\"2\"\x7d]".toList)
    (Or.inr (by decide)) (by decide)

end UserStore
